import Mathlib

/-!
Verification of the delivery-robot simulator (`main.py`): the grid model, the
three path-search algorithms (`astar`, `dijkstra`, `greedy_best_first`), the
battery/score bookkeeping of `Maze.game_loop`, and the
`SmartBatteryPlayer.escolher_alvo` target policy.

Conventions of the embedding:
* Python integers become `Int` (or `Nat` where the source value is a count);
* Python floats (`weight`-scaled thresholds, package values) become exact
  rationals `ℚ`, with `float('-inf')` modelled by `⊥` of `WithBot ℚ`;
* `heapq` heaps become lists from which the lexicographically least entry is
  popped (heap entries are pairwise distinct tuples, so `heappop` returns
  exactly that least entry);
* Python dicts become update functions `Cell → Option _`, sets become lists;
* loops become fuel-indexed recursion returning `Option _`, where `none`
  signals fuel exhaustion (proved unreachable where a claim needs it).
-/

namespace DeliveryBot

/-- A grid cell: the integer coordinate pair `(x, y)` that the Python code
stores as `[x, y]` lists or `(x, y)` tuples. -/
abbrev Cell := Int × Int

/-- `Maze.heuristic(a, b)`: the Manhattan distance `abs(a[0]-b[0]) + abs(a[1]-b[1])`. -/
def heuristic (a b : Cell) : Nat := (a.1 - b.1).natAbs + (a.2 - b.2).natAbs

/-- The per-episode grid: `world.maze_size` together with the `world.map`
row-major matrix (`0` = free, `1` = obstacle). -/
structure Grid where
  size : Nat
  map : List (List Nat)

/-- `maze[y][x]`; the algorithms only index the matrix after their bounds
check, so out-of-range defaults are never observed. -/
def mazeAt (g : Grid) (c : Cell) : Nat :=
  (g.map.getD c.2.toNat []).getD c.1.toNat 0

/-- The test every search applies to a neighbour before expanding it:
`0 <= n[0] < size and 0 <= n[1] < size` and not `maze[n[1]][n[0]] == 1`. -/
def cellWalkable (g : Grid) (c : Cell) : Prop :=
  0 ≤ c.1 ∧ c.1 < (g.size : Int) ∧ 0 ≤ c.2 ∧ c.2 < (g.size : Int) ∧ mazeAt g c ≠ 1

instance (g : Grid) : DecidablePred (cellWalkable g) := fun c => by
  unfold cellWalkable; infer_instance

/-- The shared neighbour offsets `[(1, 0), (-1, 0), (0, 1), (0, -1)]`. -/
def neighborOffsets : List Cell := [(1, 0), (-1, 0), (0, 1), (0, -1)]

/-- Two cells related by one 4-directional move. -/
def isStep (a b : Cell) : Prop := ∃ off ∈ neighborOffsets, b = (a.1 + off.1, a.2 + off.2)

instance (a b : Cell) : Decidable (isStep a b) := by unfold isStep; infer_instance

/-! ### The priority queue

`heapq` heaps of `(priority, (x, y))` tuples.  All entries in one heap are
pairwise distinct (proved where used), so `heappop` always returns the least
entry under Python's lexicographic tuple order, which is what `popMin` does. -/

abbrev PQ := List (Nat × Cell)

/-- Python's `<` on heap entries `(priority, (x, y))`: lexicographic. -/
def entryLt (a b : Nat × Cell) : Prop :=
  a.1 < b.1 ∨ (a.1 = b.1 ∧ (a.2.1 < b.2.1 ∨ (a.2.1 = b.2.1 ∧ a.2.2 < b.2.2)))

instance : DecidableRel entryLt := fun a b => by unfold entryLt; infer_instance

/-- Least entry of a heap under `entryLt` (ties impossible in our heaps). -/
def minEntry (q : PQ) : Option (Nat × Cell) :=
  match q with
  | [] => none
  | e :: es => some (es.foldl (fun m x => if entryLt x m then x else m) e)

/-- `heapq.heappop`: remove and return the least entry. -/
def popMin (q : PQ) : Option ((Nat × Cell) × PQ) :=
  match minEntry q with
  | none => none
  | some e => some (e, q.erase e)

/-! ### Path predicates on the search graph -/

/-- `Chain s p e`: the cells of `p` continue from `s` by single 4-direction
steps and end at `e`; an empty `p` means `e = s`. -/
def Chain : Cell → List Cell → Cell → Prop
  | s, [], e => e = s
  | s, c :: rest, e => isStep s c ∧ Chain c rest e

/-- A valid path of the search graph: a 4-step chain from `start` (which is
excluded from the list) whose cells are all in bounds and not obstacles. -/
def IsPath (g : Grid) (start : Cell) (p : List Cell) (goal : Cell) : Prop :=
  Chain start p goal ∧ ∀ c ∈ p, cellWalkable g c

/-- Chains are decidable (by structural recursion on the path). -/
def chainDecidable : (s : Cell) → (p : List Cell) → (e : Cell) → Decidable (Chain s p e)
  | s, [], e => inferInstanceAs (Decidable (e = s))
  | s, c :: rest, e =>
    have := chainDecidable c rest e
    inferInstanceAs (Decidable (isStep s c ∧ Chain c rest e))

instance (s : Cell) (p : List Cell) (e : Cell) : Decidable (Chain s p e) :=
  chainDecidable s p e

instance (g : Grid) (start : Cell) (p : List Cell) (goal : Cell) :
    Decidable (IsPath g start p goal) := by
  unfold IsPath; infer_instance

/-- The ancestor trace of a cell through a predecessor map: `CfTrace cf s c X`
lists `c` and its strict ancestors, nearest first, excluding the final `s`. -/
inductive CfTrace (cf : Cell → Option Cell) (s : Cell) : Cell → List Cell → Prop where
  | base : CfTrace cf s s []
  | step {c p : Cell} {t : List Cell} :
      cf c = some p → CfTrace cf s p t → CfTrace cf s c (c :: t)

/-- The in-bounds cells of the grid, as a finite set. -/
def boundCells (g : Grid) : Finset Cell :=
  Finset.Icc ((0 : Int), (0 : Int)) (((g.size : Int) - 1, (g.size : Int) - 1))

/-! ### Game state (`Maze.game_loop` bookkeeping) -/

/-- `BasePlayer` fields (position, cargo, battery) plus the
`SmartBatteryPlayer` tuning weight. -/
structure Player where
  position : Cell
  cargo : Int
  battery : Int
  weight : ℚ
deriving Repr

/-- The mutable `World` fields the core reads and writes. -/
structure WorldState where
  grid : Grid
  packages : List Cell
  goals : List Cell
  recharger : Option Cell
  totalItems : Nat
  show_emergency_alert : Bool
  alert_start_time : Int

/-- The per-episode counters owned by `Maze`. -/
structure GameState where
  world : WorldState
  player : Player
  score : Int
  steps : Nat
  numDeliveries : Nat

/-- One iteration of the path walk in `Maze.game_loop` (lines 812-824):
move to `pos`, count the step, spend battery, charge the score, and recharge
(to 60) when `pos` is the recharger. -/
def walkStep (s : GameState) (pos : Cell) : GameState :=
  let p1 := { s.player with position := pos }
  let steps1 := s.steps + 1
  let p2 := { p1 with battery := p1.battery - 1 }
  let score1 := if p2.battery ≥ 0 then s.score - 1 else s.score - 5
  let p3 := if s.world.recharger = some pos then { p2 with battery := 60 } else p2
  { s with player := p3, steps := steps1, score := score1 }

/-- Arrival processing in `Maze.game_loop` (lines 838-850): pick up a package,
or deliver when the target is a goal and cargo is positive. -/
def processArrival (s : GameState) (target : Cell) : GameState :=
  if s.player.position = target then
    if target ∈ s.world.packages then
      { s with player := { s.player with cargo := s.player.cargo + 1 },
               world := { s.world with packages := s.world.packages.erase target } }
    else if target ∈ s.world.goals ∧ s.player.cargo > 0 then
      { s with player := { s.player with cargo := s.player.cargo - 1 },
               numDeliveries := s.numDeliveries + 1,
               world := { s.world with goals := s.world.goals.erase target },
               score := s.score + 50 }
    else s
  else s

/-! ### Search state maps -/

/-- A Python dict keyed by cells (`came_from`). -/
abbrev CFMap := Cell → Option Cell

/-- A Python dict from cells to scores (`gscore`, `fscore`). -/
abbrev GMap := Cell → Option Nat

/-- Dict assignment `m[k] = v`. -/
def updateMap {α : Type} (m : Cell → Option α) (k : Cell) (v : α) : Cell → Option α :=
  fun c => if c = k then some v else m c

/-- `tentative_g < gscore.get(neighbor, float('inf'))`. -/
def ltInf (t : Nat) (o : Option Nat) : Prop :=
  match o with
  | none => True
  | some v => t < v

instance (t : Nat) (o : Option Nat) : Decidable (ltInf t o) := by
  unfold ltInf; exact match o with
  | none => inferInstanceAs (Decidable True)
  | some v => inferInstanceAs (Decidable (t < v))

/-- Path reconstruction shared by the three algorithms:
`while current in came_from: path.append(current); current = came_from[current]`
followed by `path.reverse()`.  Fuel-indexed; `none` = fuel exhausted
(unreachable from the algorithms' states, see the chain lemmas). -/
def backtrack (cf : CFMap) : Nat → Cell → List Cell → Option (List Cell)
  | 0, _, _ => none
  | fuel + 1, current, path =>
    match cf current with
    | none => some path.reverse
    | some prev => backtrack cf fuel prev (path ++ [current])

/-- Fuel for path reconstruction: a predecessor chain visits pairwise distinct
cells of the grid plus the start. -/
def btFuelOf (g : Grid) : Nat := g.size * g.size + 2

/-! ### `Maze.greedy_best_first` -/

/-- Loop state of `greedy_best_first`. -/
structure GreedyState where
  open_set : PQ
  came_from : CFMap
  visited : List Cell

/-- The body of the `for dx, dy in neighbors` loop of `greedy_best_first`
(lines 679-693): skip out-of-bounds, wall and visited neighbours, and push an
unseen neighbour with its heuristic priority, recording its predecessor. -/
def greedyRelax (g : Grid) (goal current : Cell) (visited1 : List Cell)
    (acc : PQ × CFMap) (off : Cell) : PQ × CFMap :=
  let nb : Cell := (current.1 + off.1, current.2 + off.2)
  if cellWalkable g nb then
    if nb ∈ visited1 then acc
    else if acc.1.any (fun en => en.2 = nb) then acc
    else ((heuristic nb goal, nb) :: acc.1, updateMap acc.2 nb current)
  else acc

/-- The `while open_set` loop of `Maze.greedy_best_first` (lines 666-695). -/
def greedyLoop (g : Grid) (goal : Cell) (btFuel : Nat) :
    Nat → GreedyState → Option (List Cell)
  | 0, _ => none
  | fuel + 1, st =>
    match popMin st.open_set with
    | none => some []
    | some ((_, current), rest) =>
      if current = goal then
        backtrack st.came_from btFuel current []
      else
        let visited1 := if current ∈ st.visited then st.visited else current :: st.visited
        let res := neighborOffsets.foldl (greedyRelax g goal current visited1)
          (rest, st.came_from)
        greedyLoop g goal btFuel fuel ⟨res.1, res.2, visited1⟩

/-- Fuel for `greedy_best_first`: each iteration pops one entry, and every cell
enters the heap at most once. -/
def greedyFuel (g : Grid) : Nat := 2 * (g.size * g.size) + 4

/-- `Maze.greedy_best_first(start, goal)` (lines 656-695): priority is the
Manhattan heuristic only. -/
def greedy_best_first (g : Grid) (start goal : Cell) : Option (List Cell) :=
  greedyLoop g goal (btFuelOf g) (greedyFuel g)
    ⟨[(heuristic start goal, start)], fun _ => none, []⟩

/-- Loop measure for `greedy_best_first`: each iteration pops one entry and
pushes only never-seen cells, so this strictly decreases. -/
def greedyMeasure (g : Grid) (st : GreedyState) : Nat :=
  2 * (g.size * g.size + 1 - st.visited.length - st.open_set.length) + st.open_set.length

/-- Loop invariant of `greedy_best_first`. -/
structure GInv (g : Grid) (s goal : Cell) (st : GreedyState) : Prop where
  cf_start : st.came_from s = none
  cf_shape : ∀ c p, st.came_from c = some p → isStep p c ∧ cellWalkable g c ∧ c ≠ s
  cf_trace : ∀ c p, st.came_from c = some p →
    ∃ X, CfTrace st.came_from s c X ∧ X.length ≤ st.visited.length
  cf_dom : ∀ c, (st.came_from c).isSome → c ∈ st.visited ∨ ∃ pr, (pr, c) ∈ st.open_set
  heap_cells : ∀ pr c, (pr, c) ∈ st.open_set →
    c = s ∨ ((st.came_from c).isSome ∧ cellWalkable g c)
  heap_reach : ∀ pr c, (pr, c) ∈ st.open_set → ∃ q, IsPath g s q c
  heap_vis : ∀ pr c, (pr, c) ∈ st.open_set → c ∉ st.visited
  heap_nodup : st.open_set.Pairwise (fun a b => a.2 ≠ b.2)
  visited_nodup : st.visited.Nodup
  visited_walk : ∀ c ∈ st.visited, cellWalkable g c ∨ c = s
  visited_not_goal : goal ∉ st.visited
  start_in : s ∈ st.visited ∨ ∃ pr, (pr, s) ∈ st.open_set
  covered : ∀ c ∈ st.visited, ∀ off ∈ neighborOffsets,
    cellWalkable g (c.1 + off.1, c.2 + off.2) →
    (c.1 + off.1, c.2 + off.2) ∈ st.visited ∨
      ∃ pr, (pr, (c.1 + off.1, c.2 + off.2)) ∈ st.open_set

/-- Invariant of the neighbour fold of `greedy_best_first`, relative to the
popped `current`, the extended visited set `visited1`, and the post-pop heap
`rest0`. -/
structure GFInv (g : Grid) (s goal current : Cell) (visited1 : List Cell)
    (rest0 : PQ) (acc : PQ × CFMap) : Prop where
  cf_start : acc.2 s = none
  cf_shape : ∀ c p, acc.2 c = some p → isStep p c ∧ cellWalkable g c ∧ c ≠ s
  cf_trace : ∀ c p, acc.2 c = some p →
    ∃ X, CfTrace acc.2 s c X ∧ X.length ≤ visited1.length
  cf_dom : ∀ c, (acc.2 c).isSome → c ∈ visited1 ∨ ∃ pr, (pr, c) ∈ acc.1
  heap_cells : ∀ pr c, (pr, c) ∈ acc.1 → c = s ∨ ((acc.2 c).isSome ∧ cellWalkable g c)
  heap_reach : ∀ pr c, (pr, c) ∈ acc.1 → ∃ q, IsPath g s q c
  heap_vis : ∀ pr c, (pr, c) ∈ acc.1 → c ∉ visited1
  heap_nodup : acc.1.Pairwise (fun a b => a.2 ≠ b.2)
  heap_super : ∀ e ∈ rest0, e ∈ acc.1
  start_in : s ∈ visited1 ∨ ∃ pr, (pr, s) ∈ acc.1
  cur_reach : ∃ q, IsPath g s q current
  cur_trace : ∃ X, CfTrace acc.2 s current X ∧ X.length + 1 ≤ visited1.length

/-! ### `Maze.dijkstra` -/

/-- Loop state of `dijkstra`. -/
structure DijkstraState where
  oheap : PQ
  came_from : CFMap
  gscore : GMap
  close_set : List Cell

/-- The body of the `for dx, dy in neighbors` loop of `dijkstra`
(lines 718-734): skip out-of-bounds and wall neighbours, apply the
closed-set/score filters, and push with the tentative cost as priority.
`gscore[current]` is always defined for popped cells (see the invariants);
`getD 0` only totalises the dict lookup. -/
def dijkstraRelax (g : Grid) (current : Cell) (close1 : List Cell)
    (acc : PQ × CFMap × GMap) (off : Cell) : PQ × CFMap × GMap :=
  let nb : Cell := (current.1 + off.1, current.2 + off.2)
  if cellWalkable g nb then
    let tg := (acc.2.2 current).getD 0 + 1
    if nb ∈ close1 ∧ (acc.2.2 nb).getD 0 ≤ tg then acc
    else if ltInf tg (acc.2.2 nb) ∨ ¬ acc.1.any (fun en => en.2 = nb) then
      ((tg, nb) :: acc.1, updateMap acc.2.1 nb current, updateMap acc.2.2 nb tg)
    else acc
  else acc

/-- The `while oheap` loop of `Maze.dijkstra` (lines 707-735). -/
def dijkstraLoop (g : Grid) (goal : Cell) (btFuel : Nat) :
    Nat → DijkstraState → Option (List Cell)
  | 0, _ => none
  | fuel + 1, st =>
    match popMin st.oheap with
    | none => some []
    | some ((_, current), rest) =>
      if current = goal then
        backtrack st.came_from btFuel current []
      else
        let close1 := if current ∈ st.close_set then st.close_set else current :: st.close_set
        let res := neighborOffsets.foldl (dijkstraRelax g current close1)
          (rest, st.came_from, st.gscore)
        dijkstraLoop g goal btFuel fuel ⟨res.1, res.2.1, res.2.2, close1⟩

/-- Fuel for `dijkstra` and `astar`: every push strictly lowers its cell's
gscore, and gscores are bounded by the cell count. -/
def searchFuel (g : Grid) : Nat := (g.size * g.size + 2) * (3 * (g.size * g.size) + 8)

/-- `Maze.dijkstra(start, goal)` (lines 697-735): uniform-cost search,
priority is the accumulated cost alone. -/
def dijkstra (g : Grid) (start goal : Cell) : Option (List Cell) :=
  dijkstraLoop g goal (btFuelOf g) (searchFuel g)
    ⟨[(0, start)], fun _ => none, updateMap (fun _ => none) start 0, []⟩

/-! ### Invariants shared by `dijkstra` and `astar`

Both algorithms are uniform-cost searches whose heap priority is
`gscore + hf`, with `hf = 0` for `dijkstra` and `hf = heuristic · goal`
for `astar`.  The invariants below are stated over the common components
(heap, predecessor map, gscore dict, closed set). -/

/-- Weight of one gscore slot in the termination measure: an unset slot can
fall to any set value, and a set slot only strictly decreases. -/
def gsWeight (g : Grid) : Option Nat → Nat
  | none => 3 * (g.size * g.size) + 5
  | some v => 3 * v

/-- Termination measure of `dijkstra`/`astar`: every iteration pops an entry,
and every push strictly lowers the pushed cell's gscore slot. -/
def uMeasure (g : Grid) (H : PQ) (gs : GMap) : Nat :=
  H.length + Finset.sum (boundCells g) (fun c => gsWeight g (gs c))

/-- Loop invariant of `dijkstra` (`hf = 0`) and `astar` (`hf = heuristic · goal`),
over heap `H`, predecessor map `cf`, gscore dict `gs` and closed set `C`. -/
structure UInv (g : Grid) (s goal : Cell) (hf : Cell → Nat) (H : PQ) (cf : CFMap)
    (gs : GMap) (C : List Cell) : Prop where
  g_start : gs s = some 0
  cf_start : cf s = none
  dom_iff : ∀ c, (gs c).isSome ↔ (c = s ∨ (cf c).isSome)
  dom_walk : ∀ c, (gs c).isSome → c ≠ s → cellWalkable g c
  cf_shape : ∀ c p, cf c = some p → isStep p c ∧ c ≠ s
  cf_closed : ∀ c p, cf c = some p → p ∈ C
  cf_lt : ∀ c p, cf c = some p → ∃ vc vp, gs c = some vc ∧ gs p = some vp ∧ vp < vc
  realizable : ∀ c v, gs c = some v → ∃ q, IsPath g s q c ∧ q.length = v
  closed_settled : ∀ c ∈ C, ∃ v, gs c = some v ∧ ∀ q, IsPath g s q c → v ≤ q.length
  closed_relaxed : ∀ c ∈ C, ∀ off ∈ neighborOffsets,
    cellWalkable g (c.1 + off.1, c.2 + off.2) →
    ∃ vc w, gs c = some vc ∧ gs (c.1 + off.1, c.2 + off.2) = some w ∧ w ≤ vc + 1
  fresh_entry : ∀ c v, c ∉ C → gs c = some v → (v + hf c, c) ∈ H
  entry_g : ∀ pe c, (pe, c) ∈ H → ∃ v, gs c = some v ∧ v + hf c ≤ pe
  not_goal : goal ∉ C

/-- Invariant of the neighbour fold of `dijkstra`/`astar`, relative to the
freshly settled `current` (gscore `vcur`) and the extended closed set `C1`. -/
structure UFInv (g : Grid) (s goal : Cell) (hf : Cell → Nat) (cur : Cell) (vcur : Nat)
    (C1 : List Cell) (H : PQ) (cf : CFMap) (gs : GMap) : Prop where
  g_start : gs s = some 0
  cf_start : cf s = none
  dom_iff : ∀ c, (gs c).isSome ↔ (c = s ∨ (cf c).isSome)
  dom_walk : ∀ c, (gs c).isSome → c ≠ s → cellWalkable g c
  cf_shape : ∀ c p, cf c = some p → isStep p c ∧ c ≠ s
  cf_closed : ∀ c p, cf c = some p → p ∈ C1
  cf_lt : ∀ c p, cf c = some p → ∃ vc vp, gs c = some vc ∧ gs p = some vp ∧ vp < vc
  realizable : ∀ c v, gs c = some v → ∃ q, IsPath g s q c ∧ q.length = v
  closed_settled : ∀ c ∈ C1, ∃ v, gs c = some v ∧ ∀ q, IsPath g s q c → v ≤ q.length
  closed_relaxed : ∀ c ∈ C1, c ≠ cur → ∀ off ∈ neighborOffsets,
    cellWalkable g (c.1 + off.1, c.2 + off.2) →
    ∃ vc w, gs c = some vc ∧ gs (c.1 + off.1, c.2 + off.2) = some w ∧ w ≤ vc + 1
  fresh_entry : ∀ c v, c ∉ C1 → gs c = some v → (v + hf c, c) ∈ H
  entry_g : ∀ pe c, (pe, c) ∈ H → ∃ v, gs c = some v ∧ v + hf c ≤ pe
  not_goal : goal ∉ C1
  cur_g : gs cur = some vcur
  cur_in : cur ∈ C1

/-! ### `Maze.astar` -/

/-- Loop state of `astar`. -/
structure AStarState where
  oheap : PQ
  came_from : CFMap
  gscore : GMap
  fscore : GMap
  close_set : List Cell

/-- The body of the `for dx, dy in neighbors` loop of `astar`
(lines 757-771): as in `dijkstra`, with priority `tentative_g + heuristic`
and the `fscore` bookkeeping. -/
def astarRelax (g : Grid) (goal current : Cell) (close1 : List Cell)
    (acc : PQ × CFMap × GMap × GMap) (off : Cell) : PQ × CFMap × GMap × GMap :=
  let nb : Cell := (current.1 + off.1, current.2 + off.2)
  if cellWalkable g nb then
    let tg := (acc.2.2.1 current).getD 0 + 1
    if nb ∈ close1 ∧ (acc.2.2.1 nb).getD 0 ≤ tg then acc
    else if ltInf tg (acc.2.2.1 nb) ∨ ¬ acc.1.any (fun en => en.2 = nb) then
      let fnb := tg + heuristic nb goal
      ((fnb, nb) :: acc.1, updateMap acc.2.1 nb current,
        updateMap acc.2.2.1 nb tg, updateMap acc.2.2.2 nb fnb)
    else acc
  else acc

/-- The `while oheap` loop of `Maze.astar` (lines 747-772). -/
def astarLoop (g : Grid) (goal : Cell) (btFuel : Nat) :
    Nat → AStarState → Option (List Cell)
  | 0, _ => none
  | fuel + 1, st =>
    match popMin st.oheap with
    | none => some []
    | some ((_, current), rest) =>
      if current = goal then
        backtrack st.came_from btFuel current []
      else
        let close1 := if current ∈ st.close_set then st.close_set else current :: st.close_set
        let res := neighborOffsets.foldl (astarRelax g goal current close1)
          (rest, st.came_from, st.gscore, st.fscore)
        astarLoop g goal btFuel fuel ⟨res.1, res.2.1, res.2.2.1, res.2.2.2, close1⟩

/-- `Maze.astar(start, goal)` (lines 737-772): priority is accumulated cost
plus the Manhattan heuristic. -/
def astar (g : Grid) (start goal : Cell) : Option (List Cell) :=
  astarLoop g goal (btFuelOf g) (searchFuel g)
    ⟨[(heuristic start goal, start)], fun _ => none,
      updateMap (fun _ => none) start 0,
      updateMap (fun _ => none) start (heuristic start goal), []⟩

/-- The `pathfinding_algorithm` selector of `Maze.game_loop` (lines 796-804);
an unrecognised name defaults to `astar`, so the three constructors cover all
behaviours. -/
inductive Alg where
  | astar : Alg
  | greedy : Alg
  | dijkstra : Alg

/-- Path computation as dispatched by `Maze.game_loop`. -/
def findPath (a : Alg) (g : Grid) (start goal : Cell) : Option (List Cell) :=
  match a with
  | Alg.astar => astar g start goal
  | Alg.greedy => greedy_best_first g start goal
  | Alg.dijkstra => dijkstra g start goal

/-! ### `SmartBatteryPlayer` policy -/

/-- `SmartBatteryPlayer.distance_to(pos1, pos2)`: Manhattan distance. -/
def distance_to (a b : Cell) : Int := |a.1 - b.1| + |a.2 - b.2|

/-- `self.delivery_points`. -/
def delivery_points : Int := 50

/-- `self.max_cargo`. -/
def max_cargo : Int := 4

/-- `self.base_battery_threshold = 25 * weight`. -/
def base_battery_threshold (weight : ℚ) : ℚ := 25 * weight

/-- `self.base_min_battery = 15 * weight`. -/
def base_min_battery (weight : ℚ) : ℚ := 15 * weight

/-- `self.nearby_package_range = 5 * weight`. -/
def nearby_package_range (weight : ℚ) : ℚ := 5 * weight

/-- `self.max_path_deviation = 3 * weight`. -/
def max_path_deviation (weight : ℚ) : ℚ := 3 * weight

/-- `SmartBatteryPlayer.is_on_path(point, start, end)` with the default
`max_deviation = self.max_path_deviation` (the only way it is called). -/
def is_on_path (weight : ℚ) (point start end_ : Cell) : Bool :=
  let max_deviation := max_path_deviation weight
  let direct_dist := distance_to start end_
  let detour_dist := distance_to start point + distance_to point end_
  let min_x : ℚ := ((min start.1 end_.1 : Int) : ℚ) - max_deviation
  let max_x : ℚ := ((max start.1 end_.1 : Int) : ℚ) + max_deviation
  let min_y : ℚ := ((min start.2 end_.2 : Int) : ℚ) - max_deviation
  let max_y : ℚ := ((max start.2 end_.2 : Int) : ℚ) + max_deviation
  let in_bounds := decide (min_x ≤ (point.1 : ℚ) ∧ (point.1 : ℚ) ≤ max_x) &&
    decide (min_y ≤ (point.2 : ℚ) ∧ (point.2 : ℚ) ≤ max_y)
  decide ((detour_dist : ℚ) ≤ (direct_dist : ℚ) + max_deviation) && in_bounds

/-- Running `min` over `world.goals` of the distance from `pkg`; `none` when
there are no goals (Python keeps `float('inf')`). -/
def minGoalDist (goals : List Cell) (pkg : Cell) : Option Int :=
  goals.foldl (fun acc goal =>
    let d := distance_to pkg goal
    match acc with
    | none => some d
    | some b => some (min b d)) none

/-- `pkg_value = delivery_points - pkg_dist*2 - best_goal_dist*0.5` inside
`find_nearby_packages`; with no goals the Python value is `-inf`, here `⊥`. -/
def pkg_value (goals : List Cell) (current_pos pkg : Cell) : WithBot ℚ :=
  match minGoalDist goals pkg with
  | none => ⊥
  | some d =>
    (((delivery_points : ℚ) - (distance_to current_pos pkg : ℚ) * 2 - (d : ℚ) * (1/2) : ℚ) :
      WithBot ℚ)

/-- Python `<` on the `(pkg_value, pkg)` tuples built by
`find_nearby_packages`. -/
def pairLt (a b : WithBot ℚ × Cell) : Prop :=
  a.1 < b.1 ∨ (a.1 = b.1 ∧ (a.2.1 < b.2.1 ∨ (a.2.1 = b.2.1 ∧ a.2.2 < b.2.2)))

instance : DecidableRel pairLt := fun a b => by unfold pairLt; infer_instance

/-- Stable descending insertion for `sorted(..., reverse=True)`. -/
def insertDesc (e : WithBot ℚ × Cell) : List (WithBot ℚ × Cell) → List (WithBot ℚ × Cell)
  | [] => [e]
  | x :: xs => if pairLt e x then x :: insertDesc e xs else e :: x :: xs

/-- `sorted(nearby_packages, reverse=True)`. -/
def sortDesc (l : List (WithBot ℚ × Cell)) : List (WithBot ℚ × Cell) :=
  l.foldr insertDesc []

/-- `SmartBatteryPlayer.find_nearby_packages(current_pos, world)`
(lines 118-135). -/
def find_nearby_packages (weight : ℚ) (current_pos : Cell)
    (packages goals : List Cell) : List (WithBot ℚ × Cell) :=
  sortDesc ((packages.filter (fun pkg =>
      decide ((distance_to current_pos pkg : ℚ) ≤ nearby_package_range weight))).map
    (fun pkg => (pkg_value goals current_pos pkg, pkg)))

/-- `SmartBatteryPlayer.calculate_delivery_value(current_pos, goal_pos,
recharger_pos)` (lines 169-186); pure integer arithmetic. -/
def calculate_delivery_value (battery : Int) (current_pos goal_pos recharger_pos : Cell) :
    Int :=
  let delivery_dist := distance_to current_pos goal_pos
  let recharger_dist := distance_to goal_pos recharger_pos
  let total_steps := delivery_dist + recharger_dist
  let battery_cost := total_steps
  let battery_cost1 :=
    if battery < delivery_dist then battery_cost + (delivery_dist - battery) * 4
    else battery_cost
  delivery_points - battery_cost1 - total_steps

/-- The `extra_value` loop of `calculate_path_value` (lines 143-161), with the
`available_cargo` countdown and its `break`. -/
def pathExtraValue (weight : ℚ) (current_pos target_pos : Cell) (goals : List Cell) :
    List Cell → Int → WithBot ℚ → WithBot ℚ
  | [], _, extra => extra
  | pkg :: rest, available, extra =>
    if is_on_path weight pkg current_pos target_pos then
      let pkg_dist := distance_to current_pos pkg
      let path_alignment : ℚ :=
        1 - (pkg_dist : ℚ) / ((distance_to current_pos target_pos : ℚ) + 1)
      let add : WithBot ℚ :=
        match minGoalDist goals pkg with
        | none => ⊥
        | some d =>
          (((delivery_points : ℚ) * path_alignment - (d : ℚ) * (1/2) : ℚ) : WithBot ℚ)
      let extra1 := extra + add
      let available1 := available - 1
      if available1 = 0 then extra1
      else pathExtraValue weight current_pos target_pos goals rest available1 extra1
    else pathExtraValue weight current_pos target_pos goals rest available extra

/-- `SmartBatteryPlayer.calculate_path_value(current_pos, target_pos, world)`
(lines 137-163); the recharger argument is the unwrapped `world.recharger`. -/
def calculate_path_value (weight : ℚ) (cargo battery : Int)
    (current_pos target_pos recharger : Cell) (packages goals : List Cell) : WithBot ℚ :=
  let base_value := calculate_delivery_value battery current_pos target_pos recharger
  let available_cargo := max_cargo - cargo
  let extra_value : WithBot ℚ :=
    if available_cargo > 0 then
      pathExtraValue weight current_pos target_pos goals packages available_cargo 0
    else 0
  ((base_value : ℚ) : WithBot ℚ) + extra_value

/-- `SmartBatteryPlayer.get_dynamic_thresholds(recharger_dist)`
(lines 188-193); `//` is Python floor division. -/
def get_dynamic_thresholds (weight : ℚ) (recharger_dist : Int) : ℚ × ℚ :=
  let battery_threshold := base_battery_threshold weight + (Int.fdiv recharger_dist 2 : ℚ)
  let min_battery := base_min_battery weight + (Int.fdiv recharger_dist 3 : ℚ)
  (min battery_threshold 60, min min_battery 40)

/-- `SmartBatteryPlayer.should_try_last_delivery` (lines 195-216); the two
arms of the final `if current_pos == recharger_pos` are kept although they
agree. -/
def should_try_last_delivery (battery : Int) (current_pos goal_pos recharger_pos : Cell)
    (packages : List Cell) (need_package : Bool) : Bool :=
  let delivery_dist := distance_to current_pos goal_pos
  let delivery_dist1 :=
    if need_package then
      match packages.foldl (fun acc pkg =>
          let total_dist := distance_to current_pos pkg + distance_to pkg goal_pos
          match acc with
          | none => some total_dist
          | some m => some (min m total_dist)) none with
      | some m => m
      | none => delivery_dist
    else delivery_dist
  if current_pos = recharger_pos then decide (battery ≥ delivery_dist1)
  else decide (battery ≥ delivery_dist1)

/-- The `best_pkg` fold of the last-delivery package branch (lines 253-263). -/
def bestLastPackage (battery : Int) (current_pos goal : Cell) (packages : List Cell) :
    Option Cell :=
  (packages.foldl (fun acc pkg =>
      let total_dist := distance_to current_pos pkg + distance_to pkg goal
      match acc with
      | none => if battery ≥ total_dist then some (total_dist, pkg) else none
      | some (best, bp) =>
        if total_dist < best ∧ battery ≥ total_dist then some (total_dist, pkg)
        else some (best, bp)) none).map Prod.snd

/-- The `best_goal` fold for non-final deliveries (lines 322-338);
`best_value` starts at `float('-inf')`, i.e. `⊥`. -/
def bestNormalGoal (weight : ℚ) (cargo battery : Int) (current_pos recharger : Cell)
    (packages goals : List Cell) : Option Cell :=
  (goals.foldl (fun acc goal =>
      let value := calculate_path_value weight cargo battery current_pos goal recharger
        packages goals
      let delivery_dist := distance_to current_pos goal
      let recharger_dist_from_goal := distance_to goal recharger
      let total_dist_needed := delivery_dist + recharger_dist_from_goal
      if delivery_dist ≤ 3 ∨ battery ≥ total_dist_needed + 5 then
        match acc with
        | none => if value > (⊥ : WithBot ℚ) then some (value, goal) else acc
        | some (bv, bg) => if value > bv then some (value, goal) else some (bv, bg)
      else acc) none).map Prod.snd

/-- The `best_pkg` fold for non-final pickups (lines 349-365). -/
def bestNormalPackage (weight : ℚ) (cargo battery : Int) (current_pos recharger : Cell)
    (packages goals : List Cell) : Option Cell :=
  (packages.foldl (fun acc pkg =>
      let pkg_dist := distance_to current_pos pkg
      let pkg_to_recharger := distance_to pkg recharger
      let total_dist_needed := pkg_dist + pkg_to_recharger
      if pkg_dist ≤ 3 ∨ battery ≥ total_dist_needed + 5 then
        let value := calculate_path_value weight cargo battery current_pos pkg recharger
          packages goals
        match acc with
        | none => if value > (⊥ : WithBot ℚ) then some (value, pkg) else acc
        | some (bv, bp) => if value > bv then some (value, pkg) else some (bv, bp)
      else acc) none).map Prod.snd

/-- `SmartBatteryPlayer.escolher_alvo(world)` (lines 218-377).  The returned
`WorldState` records the writes to `world.show_emergency_alert` and
`world.alert_start_time` performed by the emergency branch; `now` stands for
the `pygame.time.get_ticks()` clock read there. -/
def escolher_alvo (p : Player) (w : WorldState) (now : Int) : Option Cell × WorldState :=
  match w.recharger with
  | none => (none, w)
  | some recharger =>
    let current_pos := p.position
    let recharger_dist := distance_to current_pos recharger
    let thresholds := get_dynamic_thresholds p.weight recharger_dist
    let min_battery := thresholds.2
    let is_last := w.goals.length = 1
    if p.battery ≤ recharger_dist then
      (some recharger, { w with show_emergency_alert := true, alert_start_time := now })
    else if is_last then
      let goal := w.goals.headD (0, 0)
      if p.cargo > 0 then
        if should_try_last_delivery p.battery current_pos goal recharger w.packages false then
          (some goal, w)
        else (some recharger, w)
      else if w.packages ≠ [] then
        if should_try_last_delivery p.battery current_pos goal recharger w.packages true then
          match bestLastPackage p.battery current_pos goal w.packages with
          | some pkg => (some pkg, w)
          | none => (some recharger, w)
        else (some recharger, w)
      else (none, w)
    else if p.battery ≤ recharger_dist + 5 then
      if p.cargo > 0 ∧ w.goals ≠ [] then
        match w.goals.find? (fun goal => decide (distance_to current_pos goal ≤ 3)) with
        | some goal => (some goal, w)
        | none => (some recharger, w)
      else if w.packages ≠ [] then
        match w.packages.find? (fun pkg => decide (distance_to current_pos pkg ≤ 3)) with
        | some pkg => (some pkg, w)
        | none => (some recharger, w)
      else (some recharger, w)
    else if recharger_dist ≤ 3 ∧ p.battery < 45 then
      (some recharger, w)
    else
      let nearby :=
        if p.cargo < max_cargo then
          (find_nearby_packages p.weight current_pos w.packages w.goals).find?
            (fun vp =>
              let pkg_dist := distance_to current_pos vp.2
              decide ((pkg_dist : ℚ) ≤ nearby_package_range p.weight) &&
                (decide (p.battery ≥ pkg_dist) || decide (pkg_dist ≤ 3)))
        else none
      match nearby with
      | some vp => (some vp.2, w)
      | none =>
        if p.cargo > 0 then
          match (if w.goals ≠ [] then
              bestNormalGoal p.weight p.cargo p.battery current_pos recharger
                w.packages w.goals
            else none) with
          | some goal => (some goal, w)
          | none => (some recharger, w)
        else if w.packages ≠ [] then
          match bestNormalPackage p.weight p.cargo p.battery current_pos recharger
              w.packages w.goals with
          | some pkg => (some pkg, w)
          | none => (some recharger, w)
        else if (p.battery : ℚ) < min_battery then (some recharger, w)
        else (none, w)

/-! ### The tick state machine of `Maze.game_loop` -/

/-- Control point inside one `game_loop` iteration. -/
inductive Phase where
  | select : Phase
  | walking : Cell → List Cell → Phase
  | arrive : Cell → Phase

/-- Small-step semantics of `Maze.game_loop` (lines 784-860): target
selection (under the loop guard `num_deliveries < total_items` and the
non-empty-path check), single path-walk steps, and arrival processing. -/
inductive GStep (alg : Alg) : GameState × Phase → GameState × Phase → Prop where
  | select {s : GameState} {now : Int} {t : Cell} {w : WorldState} {path : List Cell} :
      s.numDeliveries < s.world.totalItems →
      escolher_alvo s.player s.world now = (some t, w) →
      findPath alg s.world.grid s.player.position t = some path →
      path ≠ [] →
      GStep alg (s, Phase.select) ({ s with world := w }, Phase.walking t path)
  | walk {s : GameState} {t c : Cell} {rest : List Cell} :
      GStep alg (s, Phase.walking t (c :: rest))
        (walkStep s c, if rest = [] then Phase.arrive t else Phase.walking t rest)
  | arrive {s : GameState} {t : Cell} :
      GStep alg (s, Phase.arrive t) (processArrival s t, Phase.select)

/-- Reachability in the tick state machine. -/
def GReach (alg : Alg) : GameState × Phase → GameState × Phase → Prop :=
  Relation.ReflTransGen (GStep alg)

/-- `World` generation guarantee: the recharger cell is not a package cell. -/
def RechargerDisjoint (w : WorldState) : Prop :=
  ∀ r, w.recharger = some r → r ∉ w.packages

/-- `World` generation guarantee: goal cells are not package cells. -/
def GoalsDisjoint (w : WorldState) : Prop :=
  ∀ c ∈ w.goals, c ∉ w.packages

/-- Mid-tick knowledge: a package target is only ever walked towards with
spare cargo capacity. -/
def PhaseOk (s : GameState) : Phase → Prop
  | Phase.select => True
  | Phase.walking t _ => t ∈ s.world.packages → s.player.cargo < max_cargo
  | Phase.arrive t => t ∈ s.world.packages → s.player.cargo < max_cargo

/-- The inductive invariant of the tick state machine used for the cargo
bounds: cargo stays within `[0, max_cargo]`, the goal count tracks the
deliveries, and the generation disjointness facts are preserved. -/
def StateInv (q : GameState × Phase) : Prop :=
  0 ≤ q.1.player.cargo ∧ q.1.player.cargo ≤ max_cargo ∧
  q.1.world.goals.length + q.1.numDeliveries = q.1.world.totalItems ∧
  RechargerDisjoint q.1.world ∧ GoalsDisjoint q.1.world ∧ PhaseOk q.1 q.2

end DeliveryBot

namespace DeliveryBot

/-! ### C3: per-step battery/score accounting, per-delivery reward -/

/-- C3.  Every walk step increments `steps` and, when the stepped-to cell is
not the recharger, decrements `battery` by exactly 1 whatever its sign; the
score drops by 1 when battery was positive at the start of the step and by 5
otherwise; and a successful delivery (arrival at a goal with positive cargo)
adds exactly 50 to the score. -/
theorem step_and_delivery_accounting (s : GameState) (pos : Cell) (t : Cell) :
    (walkStep s pos).steps = s.steps + 1 ∧
    (walkStep s pos).score =
      s.score - (if s.player.battery > 0 then 1 else 5) ∧
    (s.world.recharger ≠ some pos →
      (walkStep s pos).player.battery = s.player.battery - 1) ∧
    (s.player.position = t → t ∉ s.world.packages → t ∈ s.world.goals →
      s.player.cargo > 0 → (processArrival s t).score = s.score + 50) := by
  refine ⟨rfl, ?_, ?_, ?_⟩
  · show (if s.player.battery - 1 ≥ 0 then s.score - 1 else s.score - 5) = _
    rcases lt_or_le 0 s.player.battery with h | h
    · rw [if_pos (by omega), if_pos (by omega)]
    · rw [if_neg (by omega), if_neg (by omega)]
  · intro h
    simp only [walkStep, if_neg h]
  · intro hp hnp hg hc
    have hand : t ∈ s.world.goals ∧ s.player.cargo > 0 := ⟨hg, hc⟩
    unfold processArrival
    rw [if_pos hp, if_neg hnp, if_pos hand]

/-- Witness for C3 on a concrete state. -/
theorem step_and_delivery_accounting_witness :
    let g : Grid := ⟨2, [[0, 0], [0, 0]]⟩
    let w : WorldState := ⟨g, [], [((1 : Int), (0 : Int))], none, 1, false, 0⟩
    let s : GameState := ⟨w, ⟨(1, 0), 1, 70, 1⟩, 0, 0, 0⟩
    (walkStep s (0, 0)).steps = 1 ∧
    (walkStep s (0, 0)).score = -1 ∧
    (walkStep s (0, 0)).player.battery = 69 ∧
    (processArrival s (1, 0)).score = 50 := by
  intro g w s
  obtain ⟨h1, h2, h3, h4⟩ := step_and_delivery_accounting s (0, 0) (1, 0)
  refine ⟨h1, ?_, h3 (by decide), h4 rfl (by decide) (by decide) (by decide)⟩
  · rw [h2]; decide

/-! ### C4: the recharger resets battery to 60, not to the initial 70 -/

/-- C4 counterexample.  Stepping onto the recharger sets the battery to 60,
not to the initial battery level 70 claimed as `maxBattery`. -/
theorem recharge_not_to_seventy :
    let g : Grid := ⟨2, [[0, 0], [0, 0]]⟩
    let w : WorldState := ⟨g, [], [], some (0, 0), 4, false, 0⟩
    let s : GameState := ⟨w, ⟨(1, 0), 0, 10, 1⟩, 0, 0, 0⟩
    (walkStep s (0, 0)).player.battery = 60 ∧ (60 : Int) ≠ 70 := by
  exact ⟨rfl, by decide⟩

/-- C4 amended.  Stepping onto the recharger cell sets the battery to the
fixed value 60 (the initial battery is 70), and visiting the recharger causes
no pickup or delivery effect: a walk step never changes cargo, packages or
goals, and arrival processing at the recharger cell (which is neither a
package nor a goal cell) leaves the whole state unchanged. -/
theorem recharger_sets_battery_sixty (s : GameState) (pos : Cell)
    (hrec : s.world.recharger = some pos) :
    (walkStep s pos).player.battery = 60 ∧
    (walkStep s pos).player.cargo = s.player.cargo ∧
    (walkStep s pos).world.packages = s.world.packages ∧
    (walkStep s pos).world.goals = s.world.goals ∧
    (pos ∉ s.world.packages → pos ∉ s.world.goals →
      processArrival s pos = s) := by
  refine ⟨?_, ?_, rfl, rfl, ?_⟩
  · simp only [walkStep, if_pos hrec]
  · simp only [walkStep]
    split <;> rfl
  · intro hp hg
    have hand : ¬(pos ∈ s.world.goals ∧ s.player.cargo > 0) := fun h => hg h.1
    unfold processArrival
    rw [if_neg hp, if_neg hand]
    exact ite_self s

/-- Witness for C4 amended on a concrete state. -/
theorem recharger_sets_battery_sixty_witness :
    let g : Grid := ⟨2, [[0, 0], [0, 0]]⟩
    let w : WorldState := ⟨g, [((1 : Int), (1 : Int))], [], some (0, 0), 4, false, 0⟩
    let s : GameState := ⟨w, ⟨(0, 0), 0, -3, 1⟩, 0, 0, 0⟩
    (walkStep s (0, 0)).player.battery = 60 ∧ processArrival s (0, 0) = s := by
  intro g w s
  obtain ⟨h1, -, -, -, h5⟩ :=
    recharger_sets_battery_sixty s (0, 0) rfl
  exact ⟨h1, h5 (by decide) (by decide)⟩

/-! ### Shape of `escolher_alvo`: world writes and target membership -/

/-- Every return point of `escolher_alvo` passes the world through unchanged,
except the emergency branch, which sets the two alert fields. -/
theorem escolher_alvo_world_cases (p : Player) (w : WorldState) (now : Int) :
    (escolher_alvo p w now).2 = w ∨
    (escolher_alvo p w now).2 =
      { w with show_emergency_alert := true, alert_start_time := now } := by
  unfold escolher_alvo
  split
  · left; rfl
  · dsimp only
    repeat' split
    all_goals first | (left; rfl) | (right; rfl)

/-- Membership for the `best_...` folds: any produced value is built from a
list element (or was the accumulator). -/
theorem foldl_best_mem {β : Type} (step : Option β → Cell → Option β) (val : β → Cell)
    (hstep : ∀ acc x r, step acc x = some r → acc = some r ∨ val r = x) :
    ∀ (l : List Cell) (acc : Option β) (r : β),
      l.foldl step acc = some r → acc = some r ∨ val r ∈ l := by
  intro l
  induction l with
  | nil => intro acc r h; exact Or.inl h
  | cons x xs ih =>
    intro acc r h
    rcases ih (step acc x) r h with h1 | h1
    · rcases hstep acc x r h1 with h2 | h2
      · exact Or.inl h2
      · exact Or.inr (by simp [h2])
    · exact Or.inr (List.mem_cons_of_mem _ h1)

/-- The best package of the last-delivery branch is one of the packages. -/
theorem bestLastPackage_mem {battery : Int} {cur goal : Cell} {pkgs : List Cell}
    {pkg : Cell} (h : bestLastPackage battery cur goal pkgs = some pkg) : pkg ∈ pkgs := by
  unfold bestLastPackage at h
  rcases Option.map_eq_some'.1 h with ⟨pr, hF, hsnd⟩
  have hstep : ∀ (acc : Option (Int × Cell)) x r,
      (fun acc pkg =>
        let total_dist := distance_to cur pkg + distance_to pkg goal
        match acc with
        | none => if battery ≥ total_dist then some (total_dist, pkg) else none
        | some (best, bp) =>
          if total_dist < best ∧ battery ≥ total_dist then some (total_dist, pkg)
          else some (best, bp)) acc x = some r → acc = some r ∨ r.2 = x := by
    intro acc x r hr
    rcases acc with _ | ⟨b, bp⟩
    · dsimp only at hr
      split at hr
      · exact Or.inr (by injection hr with h2; rw [h2.symm])
      · exact Option.noConfusion hr
    · dsimp only at hr
      split at hr
      · exact Or.inr (by injection hr with h2; rw [h2.symm])
      · exact Or.inl hr
  rcases foldl_best_mem _ Prod.snd hstep pkgs none pr hF with h1 | h1
  · exact Option.noConfusion h1.symm
  · exact hsnd ▸ h1

/-- The best goal of the normal-delivery fold is one of the goals. -/
theorem bestNormalGoal_mem {weight : ℚ} {cargo battery : Int} {cur rech : Cell}
    {pkgs goals : List Cell} {goal : Cell}
    (h : bestNormalGoal weight cargo battery cur rech pkgs goals = some goal) :
    goal ∈ goals := by
  unfold bestNormalGoal at h
  rcases Option.map_eq_some'.1 h with ⟨pr, hF, hsnd⟩
  have hstep : ∀ (acc : Option (WithBot ℚ × Cell)) x r,
      (fun acc goal =>
        let value := calculate_path_value weight cargo battery cur goal rech pkgs goals
        let delivery_dist := distance_to cur goal
        let recharger_dist_from_goal := distance_to goal rech
        let total_dist_needed := delivery_dist + recharger_dist_from_goal
        if delivery_dist ≤ 3 ∨ battery ≥ total_dist_needed + 5 then
          match acc with
          | none => if value > (⊥ : WithBot ℚ) then some (value, goal) else acc
          | some (bv, bg) => if value > bv then some (value, goal) else some (bv, bg)
        else acc) acc x = some r → acc = some r ∨ r.2 = x := by
    intro acc x r hr
    dsimp only at hr
    split at hr
    · rcases acc with _ | ⟨bv, bg⟩
      · dsimp only at hr
        split at hr
        · exact Or.inr (by injection hr with h2; rw [h2.symm])
        · exact Option.noConfusion hr
      · dsimp only at hr
        split at hr
        · exact Or.inr (by injection hr with h2; rw [h2.symm])
        · exact Or.inl hr
    · exact Or.inl hr
  rcases foldl_best_mem _ Prod.snd hstep goals none pr hF with h1 | h1
  · exact Option.noConfusion h1.symm
  · exact hsnd ▸ h1

/-- The best package of the normal-pickup fold is one of the packages. -/
theorem bestNormalPackage_mem {weight : ℚ} {cargo battery : Int} {cur rech : Cell}
    {pkgs goals : List Cell} {pkg : Cell}
    (h : bestNormalPackage weight cargo battery cur rech pkgs goals = some pkg) :
    pkg ∈ pkgs := by
  unfold bestNormalPackage at h
  rcases Option.map_eq_some'.1 h with ⟨pr, hF, hsnd⟩
  have hstep : ∀ (acc : Option (WithBot ℚ × Cell)) x r,
      (fun acc pkg =>
        let pkg_dist := distance_to cur pkg
        let pkg_to_recharger := distance_to pkg rech
        let total_dist_needed := pkg_dist + pkg_to_recharger
        if pkg_dist ≤ 3 ∨ battery ≥ total_dist_needed + 5 then
          let value := calculate_path_value weight cargo battery cur pkg rech pkgs goals
          match acc with
          | none => if value > (⊥ : WithBot ℚ) then some (value, pkg) else acc
          | some (bv, bp) => if value > bv then some (value, pkg) else some (bv, bp)
        else acc) acc x = some r → acc = some r ∨ r.2 = x := by
    intro acc x r hr
    dsimp only at hr
    split at hr
    · rcases acc with _ | ⟨bv, bp⟩
      · dsimp only at hr
        split at hr
        · exact Or.inr (by injection hr with h2; rw [h2.symm])
        · exact Option.noConfusion hr
      · dsimp only at hr
        split at hr
        · exact Or.inr (by injection hr with h2; rw [h2.symm])
        · exact Or.inl hr
    · exact Or.inl hr
  rcases foldl_best_mem _ Prod.snd hstep pkgs none pr hF with h1 | h1
  · exact Option.noConfusion h1.symm
  · exact hsnd ▸ h1

/-- Members of an insertion are the inserted element or old members. -/
theorem mem_insertDesc {a e : WithBot ℚ × Cell} :
    ∀ {l : List (WithBot ℚ × Cell)}, a ∈ insertDesc e l → a = e ∨ a ∈ l := by
  intro l
  induction l with
  | nil => intro h; exact Or.inl (by simpa [insertDesc] using h)
  | cons x xs ih =>
    intro h
    unfold insertDesc at h
    split at h
    · rcases List.mem_cons.1 h with h1 | h1
      · exact Or.inr (by simp [h1])
      · rcases ih h1 with h2 | h2
        · exact Or.inl h2
        · exact Or.inr (List.mem_cons_of_mem _ h2)
    · rcases List.mem_cons.1 h with h1 | h1
      · exact Or.inl h1
      · exact Or.inr h1

/-- Sorting introduces no new elements. -/
theorem mem_sortDesc {a : WithBot ℚ × Cell} :
    ∀ {l : List (WithBot ℚ × Cell)}, a ∈ sortDesc l → a ∈ l := by
  intro l
  induction l with
  | nil => intro h; exact absurd h (List.not_mem_nil a)
  | cons x xs ih =>
    intro h
    rcases mem_insertDesc (l := sortDesc xs) h with h1 | h1
    · exact h1 ▸ List.mem_cons_self x xs
    · exact List.mem_cons_of_mem _ (ih h1)

/-- Entries of `find_nearby_packages` carry actual packages. -/
theorem find_nearby_packages_mem {weight : ℚ} {cur : Cell} {pkgs goals : List Cell}
    {vp : WithBot ℚ × Cell} (h : vp ∈ find_nearby_packages weight cur pkgs goals) :
    vp.2 ∈ pkgs := by
  unfold find_nearby_packages at h
  have h1 := mem_sortDesc h
  rcases List.mem_map.1 h1 with ⟨pkg, hmem, hpair⟩
  have : vp.2 = pkg := by rw [hpair.symm]
  exact this ▸ List.mem_of_mem_filter hmem

/-- The head of the goal list is a goal. -/
theorem headD_mem_of_ne_nil {l : List Cell} (h : l ≠ []) (d : Cell) : l.headD d ∈ l := by
  cases l with
  | nil => exact absurd rfl h
  | cons x xs => exact List.mem_cons_self x xs

/-- Every target returned by `escolher_alvo` (when goals remain) is the
recharger, a goal, or a package chosen with spare cargo capacity. -/
theorem escolher_alvo_target {p : Player} {w : WorldState} {now : Int}
    {t : Cell} {w2 : WorldState} (hgoals : w.goals ≠ [])
    (h : escolher_alvo p w now = (some t, w2)) :
    w.recharger = some t ∨ t ∈ w.goals ∨ (t ∈ w.packages ∧ p.cargo < max_cargo) := by
  have hmc : max_cargo = 4 := rfl
  unfold escolher_alvo at h
  split at h
  · exact absurd h (by simp)
  · dsimp only at h
    repeat' split at h
    all_goals simp only [Prod.mk.injEq, Option.some.injEq, reduceCtorEq, false_and] at h
    all_goals obtain ⟨rfl, rfl⟩ := h
    all_goals try exact Or.inl (by assumption)
    all_goals try exact Or.inr (Or.inl (headD_mem_of_ne_nil hgoals (0, 0)))
    all_goals try exact Or.inr (Or.inl (List.mem_of_find?_eq_some (by assumption)))
    all_goals try exact Or.inr (Or.inr ⟨List.mem_of_find?_eq_some (by assumption), by rw [hmc]; have h0 : ¬ p.cargo > 0 := (by tauto); omega⟩)
    all_goals try exact Or.inr (Or.inr ⟨bestLastPackage_mem (by assumption), by rw [hmc]; have h0 : ¬ p.cargo > 0 := (by tauto); omega⟩)
    all_goals try exact Or.inr (Or.inr ⟨bestNormalPackage_mem (by assumption), by rw [hmc]; have h0 : ¬ p.cargo > 0 := (by tauto); omega⟩)
    all_goals try exact Or.inr (Or.inl (bestNormalGoal_mem (by assumption)))
    all_goals rename_i hnb
    all_goals split at hnb
    all_goals try exact Option.noConfusion hnb
    all_goals exact Or.inr (Or.inr ⟨find_nearby_packages_mem (List.mem_of_find?_eq_some hnb), by assumption⟩)

/-! ### C9: `escolher_alvo` frame -/

/-- C9 counterexample.  The emergency branch of `escolher_alvo` writes the
world state it was passed: `show_emergency_alert` flips from `false` to `true`
and `alert_start_time` is set to the clock value, so the call is not free of
writes to the world's fields. -/
theorem choose_target_writes_alert :
    let g : Grid := ⟨10, List.replicate 10 (List.replicate 10 0)⟩
    let w : WorldState := ⟨g, [], [((3 : Int), (0 : Int))], some (5, 0), 4, false, 0⟩
    let p : Player := ⟨(0, 0), 1, 5, 1⟩
    w.show_emergency_alert = false ∧
    (escolher_alvo p w 123).2.show_emergency_alert = true ∧
    (escolher_alvo p w 123).2.alert_start_time = 123 := by
  exact ⟨rfl, rfl, rfl⟩

/-- C9 amended.  `escolher_alvo` never writes the agent fields or the world's
entity state: the packages, goals, recharger, grid and item count of the
returned world are exactly those passed in, and the only fields the call may
change are `show_emergency_alert` and `alert_start_time` (written by the
emergency branch).  The agent's position, cargo and battery are never
assigned by the method at all. -/
theorem choose_target_frame (p : Player) (w : WorldState) (now : Int) :
    (escolher_alvo p w now).2.packages = w.packages ∧
    (escolher_alvo p w now).2.goals = w.goals ∧
    (escolher_alvo p w now).2.recharger = w.recharger ∧
    (escolher_alvo p w now).2.grid = w.grid ∧
    (escolher_alvo p w now).2.totalItems = w.totalItems ∧
    ((escolher_alvo p w now).2 = w ∨
      (escolher_alvo p w now).2 =
        { w with show_emergency_alert := true, alert_start_time := now }) := by
  rcases escolher_alvo_world_cases p w now with h | h <;> rw [h]
  · exact ⟨rfl, rfl, rfl, rfl, rfl, Or.inl rfl⟩
  · exact ⟨rfl, rfl, rfl, rfl, rfl, Or.inr rfl⟩

/-! ### C8: behaviour with no recharger -/

/-- C8 counterexample.  With no recharger present, ample battery (70), cargo
on board and a goal right next to the agent, `escolher_alvo` still returns
`None`: it does not fall back to best-effort delivery logic, and `None` is
returned even though the battery suffices for the remaining goal path. -/
theorem no_recharger_no_fallback :
    let g : Grid := ⟨10, List.replicate 10 (List.replicate 10 0)⟩
    let w : WorldState := ⟨g, [], [((1 : Int), (0 : Int))], none, 4, false, 0⟩
    let p : Player := ⟨(0, 0), 1, 70, 1⟩
    p.battery ≥ distance_to p.position (1, 0) ∧ p.cargo > 0 ∧
    (escolher_alvo p w 0).1 = none := by
  exact ⟨by decide, by decide, rfl⟩

/-- C8 amended.  With no recharger present, `escolher_alvo` returns `None`
immediately — it never dereferences the absent recharger, never crashes, and
leaves the world unchanged — so the episode terminates with the
no-viable-target outcome regardless of battery, packages or goals. -/
theorem no_recharger_returns_none (p : Player) (w : WorldState) (now : Int)
    (h : w.recharger = none) : escolher_alvo p w now = (none, w) := by
  unfold escolher_alvo
  rw [h]

/-- Witness for C8 amended. -/
theorem no_recharger_returns_none_witness :
    let g : Grid := ⟨10, List.replicate 10 (List.replicate 10 0)⟩
    let w : WorldState := ⟨g, [((2 : Int), (2 : Int))], [((1 : Int), (0 : Int))], none, 4, false, 0⟩
    escolher_alvo ⟨(0, 0), 1, 70, 1⟩ w 0 = (none, w) := by
  intro g w
  exact no_recharger_returns_none ⟨(0, 0), 1, 70, 1⟩ w 0 rfl

/-! ### C7: the last-delivery decision with cargo on board -/

/-- C7 counterexample.  Exactly one goal remains, the agent carries cargo and
the battery (5) covers the Manhattan distance to the goal (3), yet
`escolher_alvo` does not return the goal: the emergency-recharge test
`battery <= recharger_dist` fires first (5 ≤ 5) and returns the recharger,
even though the recharger is farther than the goal. -/
theorem last_delivery_emergency_overrides :
    let g : Grid := ⟨10, List.replicate 10 (List.replicate 10 0)⟩
    let w : WorldState := ⟨g, [], [((3 : Int), (0 : Int))], some (5, 0), 4, false, 0⟩
    let p : Player := ⟨(0, 0), 1, 5, 1⟩
    w.goals = [(3, 0)] ∧ p.cargo > 0 ∧
    p.battery ≥ distance_to p.position (3, 0) ∧
    distance_to p.position (3, 0) < distance_to p.position (5, 0) ∧
    (escolher_alvo p w 0).1 = some (5, 0) ∧ ((5, 0) : Cell) ≠ (3, 0) := by
  exact ⟨rfl, by decide, by decide, by decide, rfl, by decide⟩

/-- C7 amended.  When exactly one goal remains and the agent carries cargo:
if battery ≤ distance to the recharger, the emergency rule returns the
recharger regardless of the goal; otherwise the goal is returned exactly when
battery ≥ the Manhattan distance to it, and in the remaining case the
recharger is returned — and it is then necessarily strictly closer than the
goal and reachable on the current battery. -/
theorem last_delivery_decision (p : Player) (w : WorldState) (now : Int) (r goal : Cell)
    (h1 : w.recharger = some r) (h2 : w.goals = [goal]) (h3 : p.cargo > 0) :
    (p.battery ≤ distance_to p.position r → (escolher_alvo p w now).1 = some r) ∧
    (p.battery > distance_to p.position r →
      (escolher_alvo p w now).1 =
        (if p.battery ≥ distance_to p.position goal then some goal else some r) ∧
      (p.battery < distance_to p.position goal →
        distance_to p.position r < distance_to p.position goal ∧
        distance_to p.position r ≤ p.battery)) := by
  have hst : should_try_last_delivery p.battery p.position goal r w.packages false =
      decide (p.battery ≥ distance_to p.position goal) := by
    unfold should_try_last_delivery
    simp only [Bool.false_eq_true, if_false, ite_self]
  constructor
  · intro hb
    unfold escolher_alvo
    rw [h1]
    dsimp only
    rw [if_pos hb]
  · intro hb
    unfold escolher_alvo
    rw [h1]
    dsimp only
    have hh : w.goals.headD ((0 : Int), (0 : Int)) = goal := by rw [h2]; rfl
    rw [if_neg (by omega), if_pos (by rw [h2]; rfl), if_pos h3, hh, hst]
    refine ⟨?_, fun hlt => ⟨by omega, by omega⟩⟩
    by_cases hd : p.battery ≥ distance_to p.position goal
    · rw [if_pos (by simpa using hd), if_pos hd]
    · rw [if_neg (by simpa using hd), if_neg hd]

/-- Witness for C7 amended: battery 6 > recharger distance 5, goal at
distance 3 — the goal is chosen. -/
theorem last_delivery_decision_witness :
    let g : Grid := ⟨10, List.replicate 10 (List.replicate 10 0)⟩
    let w : WorldState := ⟨g, [], [((3 : Int), (0 : Int))], some (5, 0), 4, false, 0⟩
    let p : Player := ⟨(0, 0), 1, 6, 1⟩
    (escolher_alvo p w 0).1 = some (3, 0) := by
  intro g w p
  have h := (last_delivery_decision p w 0 (5, 0) (3, 0) rfl rfl (by decide)).2 (by decide)
  rw [h.1, if_pos (by decide)]

/-! ### C6: cargo bounds along the simulation -/

/-- A walk step never changes cargo, the world, or the delivery count. -/
theorem walkStep_frame (s : GameState) (c : Cell) :
    (walkStep s c).world = s.world ∧ (walkStep s c).player.cargo = s.player.cargo ∧
    (walkStep s c).numDeliveries = s.numDeliveries := by
  refine ⟨rfl, ?_, rfl⟩
  unfold walkStep
  dsimp only
  split <;> rfl

/-- One step of the tick machine preserves the invariant bundle. -/
theorem gstep_preserves_inv {alg : Alg} {q q2 : GameState × Phase}
    (hstep : GStep alg q q2) (hinv : StateInv q) : StateInv q2 := by
  obtain ⟨hc0, hc4, hlen, hrd, hgd, hph⟩ := hinv
  cases hstep with
  | @select s now t w path hnd hpol hpath hne =>
    dsimp only at hc0 hc4 hlen hrd hgd hph
    have hg : s.world.goals ≠ [] := by
      have hpos : 0 < s.world.goals.length := by omega
      exact List.ne_nil_of_length_pos hpos
    have hw := escolher_alvo_world_cases s.player s.world now
    rw [hpol] at hw
    dsimp only at hw
    have hpk : w.packages = s.world.packages := by rcases hw with h | h <;> rw [h]
    have hgl : w.goals = s.world.goals := by rcases hw with h | h <;> rw [h]
    have hrc : w.recharger = s.world.recharger := by rcases hw with h | h <;> rw [h]
    have hti : w.totalItems = s.world.totalItems := by rcases hw with h | h <;> rw [h]
    refine ⟨hc0, hc4, ?_, ?_, ?_, ?_⟩
    · show w.goals.length + s.numDeliveries = w.totalItems
      rw [hgl, hti]; exact hlen
    · show RechargerDisjoint w
      intro r hr
      rw [hpk]
      exact hrd r (hrc ▸ hr)
    · show GoalsDisjoint w
      intro c hc
      rw [hpk]
      exact hgd c (hgl ▸ hc)
    · show PhaseOk { s with world := w } (Phase.walking t path)
      intro hm
      rcases escolher_alvo_target hg hpol with h | h | h
      · exact absurd (hpk ▸ hm) (hrd t h)
      · exact absurd (hpk ▸ hm) (hgd t h)
      · exact h.2
  | @walk s t c rest =>
    dsimp only at hc0 hc4 hlen hrd hgd hph
    obtain ⟨hw, hc, hd⟩ := walkStep_frame s c
    refine ⟨by rw [hc]; exact hc0, by rw [hc]; exact hc4, ?_, ?_, ?_, ?_⟩
    · show (walkStep s c).world.goals.length + (walkStep s c).numDeliveries =
        (walkStep s c).world.totalItems
      rw [hw, hd]; exact hlen
    · show RechargerDisjoint (walkStep s c).world
      rw [hw]; exact hrd
    · show GoalsDisjoint (walkStep s c).world
      rw [hw]; exact hgd
    · by_cases hrest : rest = []
      · rw [if_pos hrest]
        intro hm
        rw [hc]
        exact hph (hw ▸ hm)
      · rw [if_neg hrest]
        intro hm
        rw [hc]
        exact hph (hw ▸ hm)
  | @arrive s t =>
    dsimp only at hc0 hc4 hlen hrd hgd hph
    have hmc : max_cargo = 4 := rfl
    unfold processArrival
    split
    case isTrue hpos =>
      split
      case isTrue hmem =>
        have hlt : s.player.cargo < max_cargo := hph hmem
        refine ⟨by dsimp only; omega, by dsimp only; omega, hlen, ?_, ?_, trivial⟩
        · intro r hr hmem2
          exact hrd r hr (List.mem_of_mem_erase hmem2)
        · intro cg hcg hmem2
          exact hgd cg hcg (List.mem_of_mem_erase hmem2)
      case isFalse hnmem =>
        split
        case isTrue hand =>
          have hlenpos : 0 < s.world.goals.length := List.length_pos_of_mem hand.1
          have herase : (s.world.goals.erase t).length = s.world.goals.length - 1 :=
            List.length_erase_of_mem hand.1
          refine ⟨by dsimp only; omega, by dsimp only; omega, ?_, hrd, ?_, trivial⟩
          · show (s.world.goals.erase t).length + (s.numDeliveries + 1) = s.world.totalItems
            omega
          · intro cg hcg
            exact hgd cg (List.mem_of_mem_erase hcg)
        case isFalse => exact ⟨hc0, hc4, hlen, hrd, hgd, trivial⟩
    case isFalse => exact ⟨hc0, hc4, hlen, hrd, hgd, trivial⟩

/-- Reachability preserves the invariant bundle. -/
theorem greach_preserves_inv {alg : Alg} {q q2 : GameState × Phase}
    (h : GReach alg q q2) (hinv : StateInv q) : StateInv q2 := by
  induction h with
  | refl => exact hinv
  | tail _ hstep ih => exact gstep_preserves_inv hstep ih

/-- C6.  In every state the simulation loop can reach from an episode start
satisfying the generation guarantees (cargo 0, goal count = items to deliver,
recharger and goals disjoint from packages), the cargo satisfies
`0 ≤ cargo ≤ max_cargo = 4`: it never exceeds the capacity and never goes
negative. -/
theorem cargo_bounds (alg : Alg) (s0 : GameState) (q : GameState × Phase)
    (hinit : StateInv (s0, Phase.select))
    (hreach : GReach alg (s0, Phase.select) q) :
    0 ≤ q.1.player.cargo ∧ q.1.player.cargo ≤ max_cargo :=
  let hi := greach_preserves_inv hreach hinit
  ⟨hi.1, hi.2.1⟩

/-- Witness for C6 on a concrete initial state. -/
theorem cargo_bounds_witness :
    let g : Grid := ⟨5, List.replicate 5 (List.replicate 5 0)⟩
    let w : WorldState := ⟨g, [((2 : Int), (2 : Int))], [((1 : Int), (0 : Int))], some (3, 3), 1, false, 0⟩
    let s0 : GameState := ⟨w, ⟨(0, 0), 0, 70, 1⟩, 0, 0, 0⟩
    0 ≤ s0.player.cargo ∧ s0.player.cargo ≤ max_cargo := by
  intro g w s0
  refine cargo_bounds Alg.astar s0 (s0, Phase.select) ⟨by decide, by decide, by decide, ?_, ?_, trivial⟩ Relation.ReflTransGen.refl
  · intro r hr
    injection hr with hr
    rw [hr.symm]
    decide
  · unfold GoalsDisjoint
    decide

/-! ### C10: start = goal gives the empty path and ends the episode -/

/-- The search fuel is positive. -/
theorem searchFuel_pos (g : Grid) : 0 < searchFuel g :=
  Nat.mul_pos (by omega) (by omega)

/-- The greedy fuel is positive. -/
theorem greedyFuel_pos (g : Grid) : 0 < greedyFuel g := by unfold greedyFuel; omega

/-- The backtrack fuel is positive. -/
theorem btFuelOf_pos (g : Grid) : 0 < btFuelOf g := by unfold btFuelOf; omega

/-- Popping a one-entry heap. -/
theorem popMin_single (e : Nat × Cell) : popMin [e] = some (e, []) := by
  simp [popMin, minEntry]

/-- Reconstruction over the empty predecessor map yields the empty path. -/
theorem backtrack_none_cf (fuel : Nat) (hf : 0 < fuel) (cur : Cell) :
    backtrack (fun _ => none) fuel cur [] = some [] := by
  obtain ⟨m, rfl⟩ : ∃ m, fuel = m + 1 := ⟨fuel - 1, by omega⟩
  rfl

/-- `dijkstra` with `start = goal` pops the start, matches the goal at once,
and reconstructs the empty path. -/
theorem dijkstra_self (g : Grid) (c : Cell) : dijkstra g c c = some [] := by
  unfold dijkstra
  obtain ⟨k, hk⟩ : ∃ k, searchFuel g = k + 1 :=
    ⟨searchFuel g - 1, by have := searchFuel_pos g; omega⟩
  rw [hk]
  unfold dijkstraLoop
  rw [popMin_single]
  dsimp only
  rw [if_pos rfl]
  exact backtrack_none_cf _ (btFuelOf_pos g) c

/-- `astar` with `start = goal` returns the empty path. -/
theorem astar_self (g : Grid) (c : Cell) : astar g c c = some [] := by
  unfold astar
  obtain ⟨k, hk⟩ : ∃ k, searchFuel g = k + 1 :=
    ⟨searchFuel g - 1, by have := searchFuel_pos g; omega⟩
  rw [hk]
  unfold astarLoop
  rw [popMin_single]
  dsimp only
  rw [if_pos rfl]
  exact backtrack_none_cf _ (btFuelOf_pos g) c

/-- `greedy_best_first` with `start = goal` returns the empty path. -/
theorem greedy_self (g : Grid) (c : Cell) : greedy_best_first g c c = some [] := by
  unfold greedy_best_first
  obtain ⟨k, hk⟩ : ∃ k, greedyFuel g = k + 1 :=
    ⟨greedyFuel g - 1, by have := greedyFuel_pos g; omega⟩
  rw [hk]
  unfold greedyLoop
  rw [popMin_single]
  dsimp only
  rw [if_pos rfl]
  exact backtrack_none_cf _ (btFuelOf_pos g) c

/-- `findPath` with `start = goal` returns the empty path for every selector. -/
theorem findPath_self (alg : Alg) (g : Grid) (c : Cell) : findPath alg g c c = some [] := by
  cases alg with
  | astar => exact astar_self g c
  | greedy => exact greedy_self g c
  | dijkstra => exact dijkstra_self g c

/-- C10.  With `start = goal` each of the three algorithms returns the empty
path, and, since the loop treats an empty path as an unreachable target, a
tick whose chosen target equals the agent's current position admits no
transition: the episode terminates. -/
theorem start_eq_goal_empty (g : Grid) (c : Cell) (alg : Alg) (s : GameState)
    (hsel : ∀ now : Int, ∃ w2 : WorldState,
      escolher_alvo s.player s.world now = (some s.player.position, w2)) :
    astar g c c = some [] ∧ dijkstra g c c = some [] ∧
    greedy_best_first g c c = some [] ∧
    ∀ q : GameState × Phase, ¬ GStep alg (s, Phase.select) q := by
  refine ⟨astar_self g c, dijkstra_self g c, greedy_self g c, ?_⟩
  intro q h
  cases h with
  | @select _ now t w path hnd hpol hpath hne =>
    obtain ⟨w2, h2⟩ := hsel now
    rw [hpol] at h2
    injection h2 with h2a h2b
    injection h2a with h2a
    rw [h2a] at hpath
    rw [findPath_self] at hpath
    injection hpath with hpath
    exact hne hpath.symm

/-- Witness for C10: the agent sits on the recharger with an empty battery, so
the policy targets the agent's own cell for every clock value. -/
theorem start_eq_goal_empty_witness :
    let g : Grid := ⟨5, List.replicate 5 (List.replicate 5 0)⟩
    let w : WorldState := ⟨g, [], [((1 : Int), (1 : Int))], some (0, 0), 4, false, 0⟩
    let s : GameState := ⟨w, ⟨(0, 0), 0, 0, 1⟩, 0, 0, 0⟩
    astar g (2, 2) (2, 2) = some [] ∧
    ¬ GStep Alg.astar (s, Phase.select) (s, Phase.select) := by
  intro g w s
  have h := start_eq_goal_empty g (2, 2) Alg.astar s (fun now => ⟨_, rfl⟩)
  exact ⟨h.1, h.2.2.2 (s, Phase.select)⟩

/-! ### Heap-pop, chain and trace lemmas -/

/-- The heap order is irreflexive. -/
theorem entryLt_irrefl (a : Nat × Cell) : ¬ entryLt a a := by
  unfold entryLt; omega

/-- The heap order is transitive. -/
theorem entryLt_trans {a b c : Nat × Cell} (h1 : entryLt a b) (h2 : entryLt b c) :
    entryLt a c := by
  unfold entryLt at *; omega

/-- The heap order is connex. -/
theorem entryLt_connex (a b : Nat × Cell) : entryLt a b ∨ entryLt b a ∨ a = b := by
  obtain ⟨a1, a2, a3⟩ := a
  obtain ⟨b1, b2, b3⟩ := b
  unfold entryLt
  simp only [Prod.mk.injEq]
  omega

/-- The running minimum of the fold inside `minEntry` is a least member. -/
theorem foldl_min_spec (es : PQ) : ∀ e : Nat × Cell,
    (es.foldl (fun m x => if entryLt x m then x else m) e) ∈ e :: es ∧
    ∀ x ∈ e :: es, ¬ entryLt x (es.foldl (fun m x => if entryLt x m then x else m) e) := by
  induction es with
  | nil =>
    intro e
    refine ⟨List.mem_singleton.2 rfl, ?_⟩
    intro x hx
    rw [List.mem_singleton.1 hx]
    exact entryLt_irrefl _
  | cons y es ih =>
    intro e
    have hfold : (y :: es).foldl (fun m x => if entryLt x m then x else m) e =
        es.foldl (fun m x => if entryLt x m then x else m) (if entryLt y e then y else e) := rfl
    rw [hfold]
    obtain ⟨hmem, hmin⟩ := ih (if entryLt y e then y else e)
    set r := es.foldl (fun m x => if entryLt x m then x else m) (if entryLt y e then y else e) with hr
    have hre : ¬ entryLt (if entryLt y e then y else e) r := hmin _ (List.mem_cons_self _ _)
    constructor
    · rcases List.mem_cons.1 hmem with h | h
      · rw [h]
        split
        · exact List.mem_cons_of_mem _ (List.mem_cons_self _ _)
        · exact List.mem_cons_self _ _
      · exact List.mem_cons_of_mem _ (List.mem_cons_of_mem _ h)
    · intro x hx
      rcases List.mem_cons.1 hx with hxe | hx1
      · rw [hxe]
        by_cases hy : entryLt y e
        · rw [if_pos hy] at hre
          intro hcon
          exact hre (entryLt_trans hy hcon)
        · rw [if_neg hy] at hre
          exact hre
      · rcases List.mem_cons.1 hx1 with hxy | hx2
        · rw [hxy]
          by_cases hy : entryLt y e
          · rw [if_pos hy] at hre
            exact hre
          · rw [if_neg hy] at hre
            intro hcon
            rcases entryLt_connex y e with h2 | h2 | h2
            · exact hy h2
            · exact hre (entryLt_trans h2 hcon)
            · refine hre ?_
              rw [← h2]
              exact hcon
        · exact hmin x (List.mem_cons_of_mem _ hx2)

/-- Characterisation of a successful heap pop. -/
theorem popMin_spec {q : PQ} {e : Nat × Cell} {rest : PQ}
    (h : popMin q = some (e, rest)) :
    e ∈ q ∧ rest = q.erase e ∧ ∀ x ∈ q, ¬ entryLt x e := by
  unfold popMin at h
  cases hq : minEntry q with
  | none => rw [hq] at h; exact Option.noConfusion h
  | some m =>
    rw [hq] at h
    injection h with h
    injection h with h1 h2
    subst h1
    unfold minEntry at hq
    cases q with
    | nil => exact Option.noConfusion hq
    | cons y es =>
      injection hq with hq
      obtain ⟨hmem, hmin⟩ := foldl_min_spec es y
      rw [hq] at hmem hmin
      exact ⟨hmem, h2.symm, hmin⟩

/-- An empty pop means an empty heap. -/
theorem popMin_none {q : PQ} (h : popMin q = none) : q = [] := by
  cases q with
  | nil => rfl
  | cons y es => exact Option.noConfusion h

/-- Appending one step to a chain. -/
theorem chain_snoc {e c : Cell} : ∀ {p : List Cell} {s : Cell},
    Chain s p e → isStep e c → Chain s (p ++ [c]) c := by
  intro p
  induction p with
  | nil =>
    intro s h hst
    have : e = s := h
    exact ⟨this ▸ hst, rfl⟩
  | cons x xs ih =>
    intro s h hst
    exact ⟨h.1, ih h.2 hst⟩

/-- A nonempty chain contains its endpoint. -/
theorem chain_last {e : Cell} : ∀ {p : List Cell} {s : Cell},
    Chain s p e → p ≠ [] → e ∈ p := by
  intro p
  induction p with
  | nil => intro s _ hne; exact absurd rfl hne
  | cons x xs ih =>
    intro s h _
    cases xs with
    | nil => exact List.mem_singleton.2 h.2
    | cons z zs => exact List.mem_cons_of_mem _ (ih h.2 (by simp))

/-- Extending a valid path by one walkable step. -/
theorem isPath_snoc {g : Grid} {s c nb : Cell} {q : List Cell}
    (h : IsPath g s q c) (hst : isStep c nb) (hw : cellWalkable g nb) :
    IsPath g s (q ++ [nb]) nb := by
  refine ⟨chain_snoc h.1 hst, ?_⟩
  intro x hx
  rcases List.mem_append.1 hx with h1 | h1
  · exact h.2 x h1
  · rw [List.mem_singleton.1 h1]
    exact hw

/-- Traces only query the cells they list, so they survive map updates away
from those cells. -/
theorem cfTrace_congr {cf cf2 : CFMap} {s c : Cell} {X : List Cell}
    (h : CfTrace cf s c X) (hagree : ∀ x ∈ X, cf2 x = cf x) : CfTrace cf2 s c X := by
  induction h with
  | base => exact CfTrace.base
  | step hc _ ih =>
    refine CfTrace.step ?_ (ih fun x hx => hagree x (List.mem_cons_of_mem _ hx))
    rw [hagree _ (List.mem_cons_self _ _)]
    exact hc

/-- Every cell listed by a trace is bound in the predecessor map. -/
theorem cfTrace_cells {cf : CFMap} {s c : Cell} {X : List Cell}
    (h : CfTrace cf s c X) : ∀ x ∈ X, (cf x).isSome := by
  induction h with
  | base => intro x hx; exact absurd hx (List.not_mem_nil x)
  | @step c2 p2 t2 hc _ ih =>
    intro x hx
    rcases List.mem_cons.1 hx with h1 | h1
    · rw [h1, hc]
      rfl
    · exact ih x h1

/-- `backtrack` follows the trace and returns it in start-to-goal order. -/
theorem backtrack_of_trace {cf : CFMap} {s : Cell} (hs : cf s = none) :
    ∀ {c : Cell} {X : List Cell}, CfTrace cf s c X → ∀ (fuel : Nat) (acc : List Cell),
      X.length < fuel → backtrack cf fuel c acc = some (X.reverse ++ acc.reverse) := by
  intro c X h
  induction h with
  | base =>
    intro fuel acc hf
    obtain ⟨m, rfl⟩ : ∃ m, fuel = m + 1 := ⟨fuel - 1, by omega⟩
    unfold backtrack
    rw [hs]
    simp
  | @step c2 p2 t2 hc ht ih =>
    intro fuel acc hf
    obtain ⟨m, rfl⟩ : ∃ m, fuel = m + 1 := ⟨fuel - 1, by omega⟩
    unfold backtrack
    rw [hc]
    show backtrack cf m p2 (acc ++ [c2]) = _
    rw [ih m (acc ++ [c2]) (by simpa using hf)]
    simp

/-- A trace over a well-shaped predecessor map is a valid path avoiding the
start cell. -/
theorem cfTrace_path {g : Grid} {cf : CFMap} {s : Cell}
    (hshape : ∀ c p, cf c = some p → isStep p c ∧ cellWalkable g c ∧ c ≠ s) :
    ∀ {c : Cell} {X : List Cell}, CfTrace cf s c X → IsPath g s X.reverse c ∧ s ∉ X := by
  intro c X h
  induction h with
  | base => exact ⟨⟨rfl, by simp⟩, by simp⟩
  | step hc ht ih =>
    obtain ⟨⟨hch, hwalk⟩, hns⟩ := ih
    obtain ⟨hst, hw, hne⟩ := hshape _ _ hc
    refine ⟨⟨?_, ?_⟩, ?_⟩
    · rw [List.reverse_cons]
      exact chain_snoc hch hst
    · intro x hx
      rw [List.reverse_cons] at hx
      rcases List.mem_append.1 hx with h1 | h1
      · exact hwalk x h1
      · rw [List.mem_singleton.1 h1]
        exact hw
    · intro hmem
      rcases List.mem_cons.1 hmem with h1 | h1
      · exact hne h1.symm
      · exact hns h1

/-- The in-bounds cell count. -/
theorem boundCells_card (g : Grid) : (boundCells g).card = g.size * g.size := by
  unfold boundCells
  rw [Finset.card_Icc_prod]
  simp only [Int.card_Icc]
  have h : ((g.size : Int) - 1 + 1 - 0).toNat = g.size := by omega
  rw [h]

/-- Walkable cells are in bounds. -/
theorem mem_boundCells {g : Grid} {c : Cell} (h : cellWalkable g c) : c ∈ boundCells g := by
  obtain ⟨h1, h2, h3, h4, h5⟩ := h
  unfold boundCells
  rw [Finset.mem_Icc]
  constructor
  · rw [Prod.le_def]
    exact ⟨h1, h3⟩
  · rw [Prod.le_def]
    constructor
    · exact by omega
    · exact by omega

/-- A duplicate-free list of walkable-or-start cells has at most
`size² + 1` elements. -/
theorem nodup_length_le (g : Grid) (s : Cell) (l : List Cell) (hnd : l.Nodup)
    (hb : ∀ c ∈ l, cellWalkable g c ∨ c = s) : l.length ≤ g.size * g.size + 1 := by
  have hsub : l.toFinset ⊆ insert s (boundCells g) := by
    intro c hc
    rcases hb c (List.mem_toFinset.1 hc) with h | h
    · exact Finset.mem_insert_of_mem (mem_boundCells h)
    · exact h ▸ Finset.mem_insert_self _ _
  calc l.length = l.toFinset.card := (List.toFinset_card_of_nodup hnd).symm
    _ ≤ (insert s (boundCells g)).card := Finset.card_le_card hsub
    _ ≤ (boundCells g).card + 1 := Finset.card_insert_le _ _
    _ = g.size * g.size + 1 := by rw [boundCells_card]

/-! ### The greedy neighbour fold -/

/-- Case analysis of one neighbour-relaxation of `greedy_best_first`. -/
theorem greedyRelax_cases (g : Grid) (goal current : Cell) (visited1 : List Cell)
    (acc : PQ × CFMap) (off : Cell) :
    (greedyRelax g goal current visited1 acc off = acc ∧
      (¬ cellWalkable g (current.1 + off.1, current.2 + off.2) ∨
        (current.1 + off.1, current.2 + off.2) ∈ visited1 ∨
        ∃ pr, (pr, (current.1 + off.1, current.2 + off.2)) ∈ acc.1)) ∨
    (cellWalkable g (current.1 + off.1, current.2 + off.2) ∧
      (current.1 + off.1, current.2 + off.2) ∉ visited1 ∧
      (∀ pr, (pr, (current.1 + off.1, current.2 + off.2)) ∉ acc.1) ∧
      greedyRelax g goal current visited1 acc off =
        ((heuristic (current.1 + off.1, current.2 + off.2) goal,
          (current.1 + off.1, current.2 + off.2)) :: acc.1,
         updateMap acc.2 (current.1 + off.1, current.2 + off.2) current)) := by
  unfold greedyRelax
  dsimp only
  split
  · split
    · exact Or.inl ⟨rfl, Or.inr (Or.inl (by assumption))⟩
    · split
      · rename_i hw hv hh
        refine Or.inl ⟨rfl, Or.inr (Or.inr ?_)⟩
        obtain ⟨en, hmem, hdec⟩ := List.any_eq_true.1 hh
        refine ⟨en.1, ?_⟩
        have : en.2 = (current.1 + off.1, current.2 + off.2) := by simpa using hdec
        rw [← this]
        exact hmem
      · rename_i hw hv hh
        refine Or.inr ⟨hw, hv, ?_, rfl⟩
        intro pr hmem
        exact hh (List.any_eq_true.2 ⟨(pr, _), hmem, by simp⟩)
  · exact Or.inl ⟨rfl, Or.inl (by assumption)⟩

/-- One neighbour-relaxation preserves the fold invariant. -/
theorem gfinv_step {g : Grid} {s goal current : Cell} {visited1 : List Cell} {rest0 : PQ}
    {acc : PQ × CFMap} (hinv : GFInv g s goal current visited1 rest0 acc)
    {off : Cell} (hoff : off ∈ neighborOffsets) :
    GFInv g s goal current visited1 rest0 (greedyRelax g goal current visited1 acc off) := by
  rcases greedyRelax_cases g goal current visited1 acc off with ⟨h, -⟩ | ⟨hw, hv, hfresh, h⟩
  · rw [h]; exact hinv
  · rw [h]
    obtain ⟨cfs, cfsh, cftr, cfd, hcells, hreach, hvis, hnd, hsup, hstart, hcurr, hcurt⟩ := hinv
    set nb : Cell := (current.1 + off.1, current.2 + off.2) with hnbdef
    have hnbnone : acc.2 nb = none := by
      cases hnone : acc.2 nb with
      | none => rfl
      | some p =>
        rcases cfd nb (by rw [hnone]; rfl) with h1 | ⟨pr, h1⟩
        · exact absurd h1 hv
        · exact absurd h1 (hfresh pr)
    have hnbs : nb ≠ s := by
      intro he
      rcases hstart with h1 | ⟨pr, h1⟩
      · exact hv (he ▸ h1)
      · exact hfresh pr (he ▸ h1)
    have hagree : ∀ X : List Cell, (∀ x ∈ X, (acc.2 x).isSome) →
        ∀ x ∈ X, updateMap acc.2 nb current x = acc.2 x := by
      intro X hX x hx
      unfold updateMap
      rw [if_neg ?_]
      intro he
      have h2 := hX x hx
      rw [he, hnbnone] at h2
      exact Bool.noConfusion h2
    have hstepnb : isStep current nb := ⟨off, hoff, rfl⟩
    refine ⟨?_, ?_, ?_, ?_, ?_, ?_, ?_, ?_, ?_, ?_, hcurr, ?_⟩
    · show updateMap acc.2 nb current s = none
      unfold updateMap
      rw [if_neg (fun he => hnbs he.symm)]
      exact cfs
    · intro c p hcp
      unfold updateMap at hcp
      dsimp only at hcp
      by_cases hc : c = nb
      · rw [if_pos hc] at hcp
        injection hcp with hcp
        rw [← hcp]
        exact ⟨hc ▸ hstepnb, hc ▸ hw, hc ▸ hnbs⟩
      · rw [if_neg hc] at hcp
        exact cfsh c p hcp
    · intro c p hcp
      by_cases hc : c = nb
      · obtain ⟨X, hX, hXlen⟩ := hcurt
        refine ⟨c :: X, CfTrace.step ?_ (cfTrace_congr hX (hagree X (cfTrace_cells hX))),
          by simp; omega⟩
        show updateMap acc.2 nb current c = some current
        unfold updateMap
        rw [if_pos hc]
      · unfold updateMap at hcp
        dsimp only at hcp
        rw [if_neg hc] at hcp
        obtain ⟨X, hX, hXlen⟩ := cftr c p hcp
        exact ⟨X, cfTrace_congr hX (hagree X (cfTrace_cells hX)), hXlen⟩
    · intro c hc
      by_cases hceq : c = nb
      · exact Or.inr ⟨heuristic nb goal, by rw [hceq]; exact List.mem_cons_self _ _⟩
      · unfold updateMap at hc
        dsimp only at hc
        rw [if_neg hceq] at hc
        rcases cfd c hc with h1 | ⟨pr, h1⟩
        · exact Or.inl h1
        · exact Or.inr ⟨pr, List.mem_cons_of_mem _ h1⟩
    · intro pr c hmem
      rcases List.mem_cons.1 hmem with h1 | h1
      · injection h1 with h1a h1b
        refine Or.inr ⟨?_, h1b ▸ hw⟩
        show (updateMap acc.2 nb current c).isSome
        unfold updateMap
        rw [if_pos h1b]
        rfl
      · rcases hcells pr c h1 with h2 | ⟨h2a, h2b⟩
        · exact Or.inl h2
        · have hcnb : c ≠ nb := fun he => hfresh pr (he ▸ h1)
          refine Or.inr ⟨?_, h2b⟩
          show (updateMap acc.2 nb current c).isSome
          unfold updateMap
          rw [if_neg hcnb]
          exact h2a
    · intro pr c hmem
      rcases List.mem_cons.1 hmem with h1 | h1
      · obtain ⟨q, hq⟩ := hcurr
        injection h1 with h1a h1b
        rw [h1b]
        exact ⟨q ++ [nb], isPath_snoc hq hstepnb hw⟩
      · exact hreach pr c h1
    · intro pr c hmem
      rcases List.mem_cons.1 hmem with h1 | h1
      · injection h1 with h1a h1b
        exact h1b ▸ hv
      · exact hvis pr c h1
    · refine List.Pairwise.cons ?_ hnd
      intro b hb heq
      refine hfresh b.1 ?_
      have heq2 : nb = b.2 := heq
      rw [heq2]
      exact hb
    · intro e he
      exact List.mem_cons_of_mem _ (hsup e he)
    · rcases hstart with h1 | ⟨pr, h1⟩
      · exact Or.inl h1
      · exact Or.inr ⟨pr, List.mem_cons_of_mem _ h1⟩
    · obtain ⟨X, hX, hXlen⟩ := hcurt
      exact ⟨X, cfTrace_congr hX (hagree X (cfTrace_cells hX)), hXlen⟩

/-- The neighbour fold preserves the fold invariant. -/
theorem gfinv_fold {g : Grid} {s goal current : Cell} {visited1 : List Cell} {rest0 : PQ} :
    ∀ (offs : List Cell) (acc : PQ × CFMap), (∀ off ∈ offs, off ∈ neighborOffsets) →
      GFInv g s goal current visited1 rest0 acc →
      GFInv g s goal current visited1 rest0
        (offs.foldl (greedyRelax g goal current visited1) acc) := by
  intro offs
  induction offs with
  | nil => intro acc _ hinv; exact hinv
  | cons o os ih =>
    intro acc hoffs hinv
    exact ih _ (fun off hoff => hoffs off (List.mem_cons_of_mem _ hoff))
      (gfinv_step hinv (hoffs o (List.mem_cons_self _ _)))

/-- The fold only adds heap entries. -/
theorem greedy_fold_mono {g : Grid} {goal current : Cell} {visited1 : List Cell} :
    ∀ (offs : List Cell) (acc : PQ × CFMap) (e : Nat × Cell), e ∈ acc.1 →
      e ∈ (offs.foldl (greedyRelax g goal current visited1) acc).1 := by
  intro offs
  induction offs with
  | nil => intro acc e he; exact he
  | cons o os ih =>
    intro acc e he
    refine ih _ e ?_
    rcases greedyRelax_cases g goal current visited1 acc o with ⟨h, -⟩ | ⟨-, -, -, h⟩
    · rw [h]; exact he
    · rw [h]; exact List.mem_cons_of_mem _ he

/-- The fold only grows the heap. -/
theorem greedy_fold_len {g : Grid} {goal current : Cell} {visited1 : List Cell} :
    ∀ (offs : List Cell) (acc : PQ × CFMap),
      acc.1.length ≤ ((offs.foldl (greedyRelax g goal current visited1) acc).1).length := by
  intro offs
  induction offs with
  | nil => intro acc; exact le_refl _
  | cons o os ih =>
    intro acc
    refine le_trans ?_ (ih (greedyRelax g goal current visited1 acc o))
    rcases greedyRelax_cases g goal current visited1 acc o with ⟨h, -⟩ | ⟨-, -, -, h⟩
    · rw [h]
    · rw [h]
      exact Nat.le_succ _

/-- After the fold, every processed walkable neighbour is visited or queued. -/
theorem greedy_fold_covers {g : Grid} {goal current : Cell} {visited1 : List Cell} :
    ∀ (offs : List Cell) (acc : PQ × CFMap) (off : Cell), off ∈ offs →
      cellWalkable g (current.1 + off.1, current.2 + off.2) →
      (current.1 + off.1, current.2 + off.2) ∈ visited1 ∨
        ∃ pr, (pr, (current.1 + off.1, current.2 + off.2)) ∈
          (offs.foldl (greedyRelax g goal current visited1) acc).1 := by
  intro offs
  induction offs with
  | nil => intro acc off hoff; exact absurd hoff (List.not_mem_nil off)
  | cons o os ih =>
    intro acc off hoff hw
    rcases List.mem_cons.1 hoff with h1 | h1
    · rw [h1]
      rw [h1] at hw
      rcases greedyRelax_cases g goal current visited1 acc o with
        ⟨heq, h2 | h2 | ⟨pr, h2⟩⟩ | ⟨-, -, -, heq⟩
      · exact absurd hw h2
      · exact Or.inl h2
      · refine Or.inr ⟨pr, greedy_fold_mono os _ _ ?_⟩
        rw [heq]
        exact h2
      · refine Or.inr ⟨heuristic (current.1 + o.1, current.2 + o.2) goal,
          greedy_fold_mono os _ _ ?_⟩
        rw [heq]
        exact List.mem_cons_self _ _
    · exact ih (greedyRelax g goal current visited1 acc o) off h1 hw

/-- An exhausted greedy frontier proves the goal unreachable. -/
theorem greedy_no_path {g : Grid} {s goal : Cell} {st : GreedyState}
    (hinv : GInv g s goal st) (hempty : st.open_set = []) :
    ∀ q, ¬ IsPath g s q goal := by
  have hs : s ∈ st.visited := by
    rcases hinv.start_in with h | ⟨pr, h⟩
    · exact h
    · rw [hempty] at h
      exact absurd h (List.not_mem_nil _)
  have hclosed : ∀ (q : List Cell) (a e : Cell), Chain a q e →
      (∀ c ∈ q, cellWalkable g c) → a ∈ st.visited → e ∈ st.visited := by
    intro q
    induction q with
    | nil =>
      intro a e h _ ha
      exact h ▸ ha
    | cons c cs ih =>
      intro a e h hw ha
      obtain ⟨⟨off, hoff, hc⟩, hch⟩ := h
      have hcv : c ∈ st.visited := by
        rcases hinv.covered a ha off hoff
            (hc ▸ hw c (List.mem_cons_self _ _)) with h1 | ⟨pr, h1⟩
        · exact hc ▸ h1
        · rw [hempty] at h1
          exact absurd h1 (List.not_mem_nil _)
      exact ih c e hch (fun x hx => hw x (List.mem_cons_of_mem _ hx)) hcv
  intro q hq
  exact hinv.visited_not_goal (hclosed q s goal hq.1 hq.2 hs)

/-- `greedyLoop` step equation: empty heap. -/
theorem greedyLoop_empty {g : Grid} {goal : Cell} {bt n : Nat} {st : GreedyState}
    (h : popMin st.open_set = none) :
    greedyLoop g goal bt (n + 1) st = some [] := by
  unfold greedyLoop
  rw [h]

/-- `greedyLoop` step equation: a popped entry. -/
theorem greedyLoop_pop {g : Grid} {goal : Cell} {bt n : Nat} {st : GreedyState}
    {pr : Nat} {current : Cell} {rest : PQ}
    (h : popMin st.open_set = some ((pr, current), rest)) :
    greedyLoop g goal bt (n + 1) st =
      if current = goal then backtrack st.came_from bt current []
      else
        greedyLoop g goal bt n
          ⟨(neighborOffsets.foldl (greedyRelax g goal current
              (if current ∈ st.visited then st.visited else current :: st.visited))
              (rest, st.came_from)).1,
           (neighborOffsets.foldl (greedyRelax g goal current
              (if current ∈ st.visited then st.visited else current :: st.visited))
              (rest, st.came_from)).2,
           if current ∈ st.visited then st.visited else current :: st.visited⟩ := by
  conv_lhs => unfold greedyLoop
  rw [h]

/-- Master lemma for the greedy loop: with the invariant and enough fuel it
returns either a valid start-avoiding path to the goal, or the empty path
together with unreachability of the goal. -/
theorem greedyLoop_master (g : Grid) (s goal : Cell) :
    ∀ (fuel : Nat) (st : GreedyState), GInv g s goal st → greedyMeasure g st < fuel →
      ∃ out, greedyLoop g goal (btFuelOf g) fuel st = some out ∧
        ((IsPath g s out goal ∧ s ∉ out) ∨ (out = [] ∧ ∀ q, ¬ IsPath g s q goal)) := by
  intro fuel
  induction fuel with
  | zero => intro st _ h; exact absurd h (Nat.not_lt_zero _)
  | succ n ih =>
    intro st hinv hm
    cases hpop : popMin st.open_set with
    | none =>
      exact ⟨[], greedyLoop_empty hpop,
        Or.inr ⟨rfl, greedy_no_path hinv (popMin_none hpop)⟩⟩
    | some pe =>
      obtain ⟨⟨pr, current⟩, rest⟩ := pe
      obtain ⟨hmem, hrest, hmin⟩ := popMin_spec hpop
      rw [greedyLoop_pop hpop]
      by_cases hgoal : current = goal
      · rw [if_pos hgoal]
        have htr : ∃ X, CfTrace st.came_from s current X ∧ X.length ≤ st.visited.length := by
          rcases hinv.heap_cells pr current hmem with h1 | ⟨h1, h2⟩
          · refine ⟨[], ?_, by simp⟩
            rw [h1]
            exact CfTrace.base
          · obtain ⟨p, hp⟩ := Option.isSome_iff_exists.1 h1
            exact hinv.cf_trace current p hp
        obtain ⟨X, hX, hXlen⟩ := htr
        have hvb : st.visited.length ≤ g.size * g.size + 1 :=
          nodup_length_le g s st.visited hinv.visited_nodup hinv.visited_walk
        have hbt := backtrack_of_trace hinv.cf_start hX (btFuelOf g) []
          (by unfold btFuelOf; omega)
        obtain ⟨⟨hchain, hwalkp⟩, hnmem⟩ := cfTrace_path hinv.cf_shape hX
        refine ⟨X.reverse, by rw [hbt]; simp, Or.inl ⟨⟨?_, hwalkp⟩, ?_⟩⟩
        · rw [← hgoal]
          exact hchain
        · intro hs
          exact hnmem (List.mem_reverse.1 hs)
      · rw [if_neg hgoal]
        have hfresh : current ∉ st.visited := hinv.heap_vis pr current hmem
        simp only [if_neg hfresh]
        have hopen_nodup : st.open_set.Nodup :=
          hinv.heap_nodup.imp (fun h => fun he => h (congrArg Prod.snd he))
        have henotrest : (pr, current) ∉ rest := by
          rw [hrest]
          exact hopen_nodup.not_mem_erase
        have hcellsym : Symmetric (fun a b : Nat × Cell => a.2 ≠ b.2) :=
          fun a b h => fun he => h he.symm
        have hrestfact : ∀ pr2 c, (pr2, c) ∈ rest →
            (pr2, c) ∈ st.open_set ∧ c ≠ current := by
          intro pr2 c hc
          have hmem2 : (pr2, c) ∈ st.open_set := List.mem_of_mem_erase (hrest ▸ hc)
          refine ⟨hmem2, ?_⟩
          have hne : (pr2, c) ≠ (pr, current) := by
            intro he
            exact henotrest (he ▸ hc)
          exact hinv.heap_nodup.forall hcellsym hmem2 hmem hne
        have hF0 : GFInv g s goal current (current :: st.visited) rest
            (rest, st.came_from) := by
          refine ⟨hinv.cf_start, hinv.cf_shape, ?_, ?_, ?_, ?_, ?_, ?_,
            fun e he => he, ?_, hinv.heap_reach pr current hmem, ?_⟩
          · intro c p hcp
            obtain ⟨X, hX, hl⟩ := hinv.cf_trace c p hcp
            exact ⟨X, hX, by simp; omega⟩
          · intro c hc
            rcases hinv.cf_dom c hc with h1 | ⟨pr2, h1⟩
            · exact Or.inl (List.mem_cons_of_mem _ h1)
            · by_cases hcc : c = current
              · exact Or.inl (by rw [hcc]; exact List.mem_cons_self _ _)
              · refine Or.inr ⟨pr2, ?_⟩
                rw [hrest]
                exact (List.mem_erase_of_ne
                  (fun he => hcc (congrArg Prod.snd he))).2 h1
          · intro pr2 c hc
            exact hinv.heap_cells pr2 c (List.mem_of_mem_erase (hrest ▸ hc))
          · intro pr2 c hc
            exact hinv.heap_reach pr2 c (List.mem_of_mem_erase (hrest ▸ hc))
          · intro pr2 c hc
            obtain ⟨hc1, hc2⟩ := hrestfact pr2 c hc
            intro hv1
            rcases List.mem_cons.1 hv1 with h1 | h1
            · exact hc2 h1
            · exact hinv.heap_vis pr2 c hc1 h1
          · exact List.Pairwise.sublist (hrest ▸ List.erase_sublist _ _) hinv.heap_nodup
          · rcases hinv.start_in with h | ⟨pr2, h⟩
            · exact Or.inl (List.mem_cons_of_mem _ h)
            · by_cases hsc : s = current
              · exact Or.inl (by rw [hsc]; exact List.mem_cons_self _ _)
              · refine Or.inr ⟨pr2, ?_⟩
                rw [hrest]
                exact (List.mem_erase_of_ne
                  (fun he => hsc (congrArg Prod.snd he))).2 h
          · rcases hinv.heap_cells pr current hmem with h1 | ⟨h1, h2⟩
            · refine ⟨[], ?_, by simp⟩
              rw [h1]
              exact CfTrace.base
            · obtain ⟨p, hp⟩ := Option.isSome_iff_exists.1 h1
              obtain ⟨X, hX, hl⟩ := hinv.cf_trace current p hp
              exact ⟨X, hX, by simp; omega⟩
        have hFF := gfinv_fold neighborOffsets (rest, st.came_from)
          (fun _ h => h) hF0
        have hwalknew : ∀ c ∈ current :: st.visited, cellWalkable g c ∨ c = s := by
          intro c hc
          rcases List.mem_cons.1 hc with h1 | h1
          · rcases hinv.heap_cells pr current hmem with h2 | ⟨h2a, h2b⟩
            · exact Or.inr (h1.trans h2)
            · exact Or.inl (h1 ▸ h2b)
          · exact hinv.visited_walk c h1
        have hndnew : (current :: st.visited).Nodup :=
          List.nodup_cons.2 ⟨hfresh, hinv.visited_nodup⟩
        have hGInv2 : GInv g s goal
            ⟨(neighborOffsets.foldl (greedyRelax g goal current (current :: st.visited))
                (rest, st.came_from)).1,
             (neighborOffsets.foldl (greedyRelax g goal current (current :: st.visited))
                (rest, st.came_from)).2,
             current :: st.visited⟩ := by
          refine ⟨hFF.cf_start, hFF.cf_shape, hFF.cf_trace, hFF.cf_dom, hFF.heap_cells,
            hFF.heap_reach, hFF.heap_vis, hFF.heap_nodup, hndnew, hwalknew, ?_,
            hFF.start_in, ?_⟩
          · intro hgm
            rcases List.mem_cons.1 hgm with h1 | h1
            · exact hgoal h1.symm
            · exact hinv.visited_not_goal h1
          · intro c hc off hoff hw
            rcases List.mem_cons.1 hc with h1 | h1
            · rw [h1] at hw ⊢
              exact greedy_fold_covers neighborOffsets (rest, st.came_from) off hoff hw
            · rcases hinv.covered c h1 off hoff hw with h2 | ⟨pr2, h2⟩
              · exact Or.inl (List.mem_cons_of_mem _ h2)
              · by_cases hnc : (c.1 + off.1, c.2 + off.2) = current
                · exact Or.inl (by rw [hnc]; exact List.mem_cons_self _ _)
                · refine Or.inr ⟨pr2, greedy_fold_mono _ _ _ ?_⟩
                  rw [hrest]
                  exact (List.mem_erase_of_ne
                    (fun he => hnc (congrArg Prod.snd he))).2 h2
        have hlen_le : rest.length ≤
            ((neighborOffsets.foldl (greedyRelax g goal current (current :: st.visited))
              (rest, st.came_from)).1).length :=
          greedy_fold_len neighborOffsets (rest, st.came_from)
        have hopos : 0 < st.open_set.length := List.length_pos_of_mem hmem
        have hrlen : rest.length = st.open_set.length - 1 := by
          rw [hrest]
          exact List.length_erase_of_mem hmem
        have hbound2 : (current :: st.visited).length +
            ((neighborOffsets.foldl (greedyRelax g goal current (current :: st.visited))
                (rest, st.came_from)).1).length ≤ g.size * g.size + 1 := by
          have hnodupm : (((neighborOffsets.foldl
              (greedyRelax g goal current (current :: st.visited))
              (rest, st.came_from)).1).map Prod.snd).Nodup :=
            List.pairwise_map.2 hFF.heap_nodup
          have hcomb : ((((neighborOffsets.foldl
              (greedyRelax g goal current (current :: st.visited))
              (rest, st.came_from)).1).map Prod.snd) ++ (current :: st.visited)).Nodup := by
            rw [List.nodup_append]
            refine ⟨hnodupm, hndnew, ?_⟩
            intro c hc hv
            obtain ⟨e2, he2, hee⟩ := List.mem_map.1 hc
            exact hFF.heap_vis e2.1 e2.2 he2 (hee ▸ hv)
          have hball : ∀ c ∈ ((((neighborOffsets.foldl
              (greedyRelax g goal current (current :: st.visited))
              (rest, st.came_from)).1).map Prod.snd) ++ (current :: st.visited)),
              cellWalkable g c ∨ c = s := by
            intro c hc
            rcases List.mem_append.1 hc with h1 | h1
            · obtain ⟨e2, he2, hee⟩ := List.mem_map.1 h1
              rcases hFF.heap_cells e2.1 e2.2 he2 with h2 | ⟨h2a, h2b⟩
              · exact Or.inr (hee ▸ h2)
              · exact Or.inl (hee ▸ h2b)
            · exact hwalknew c h1
          have hlen := nodup_length_le g s _ hcomb hball
          rw [List.length_append, List.length_map] at hlen
          omega
        have hmnew : greedyMeasure g
            ⟨(neighborOffsets.foldl (greedyRelax g goal current (current :: st.visited))
                (rest, st.came_from)).1,
             (neighborOffsets.foldl (greedyRelax g goal current (current :: st.visited))
                (rest, st.came_from)).2,
             current :: st.visited⟩ < greedyMeasure g st := by
          unfold greedyMeasure
          dsimp only
          simp only [List.length_cons] at hbound2 ⊢
          omega
        exact ih _ hGInv2 (by omega)

/-- `greedy_best_first` returns a valid start-avoiding path when one exists,
and the empty path exactly when the goal is unreachable. -/
theorem greedy_master (g : Grid) (s goal : Cell) :
    ∃ out, greedy_best_first g s goal = some out ∧
      ((IsPath g s out goal ∧ s ∉ out) ∨ (out = [] ∧ ∀ q, ¬ IsPath g s q goal)) := by
  unfold greedy_best_first
  refine greedyLoop_master g s goal (greedyFuel g) _ ?_ ?_
  · refine ⟨rfl, ?_, ?_, ?_, ?_, ?_, ?_, ?_, List.nodup_nil, ?_, ?_, ?_, ?_⟩
    · intro c p h
      exact Option.noConfusion h
    · intro c p h
      exact Option.noConfusion h
    · intro c h
      exact absurd h (by simp)
    · intro pr c h
      injection List.mem_singleton.1 h with h1 h2
      exact Or.inl h2
    · intro pr c h
      injection List.mem_singleton.1 h with h1 h2
      refine ⟨[], ?_, fun x hx => absurd hx (List.not_mem_nil x)⟩
      exact h2
    · intro pr c h
      exact List.not_mem_nil c
    · exact List.pairwise_singleton _ _
    · intro c hc
      exact absurd hc (List.not_mem_nil c)
    · exact List.not_mem_nil goal
    · exact Or.inr ⟨heuristic s goal, List.mem_singleton.2 rfl⟩
    · intro c hc
      exact absurd hc (List.not_mem_nil c)
  · unfold greedyMeasure greedyFuel
    simp only [List.length_nil, List.length_singleton]
    omega

/-! ### Path shortening -/

/-- A chain through an appended list splits at the junction. -/
theorem chain_append {e : Cell} : ∀ {u v : List Cell} {s : Cell},
    Chain s (u ++ v) e → ∃ m, Chain s u m ∧ Chain m v e := by
  intro u
  induction u with
  | nil => intro v s h; exact ⟨s, rfl, h⟩
  | cons x xs ih =>
    intro v s h
    obtain ⟨m, h1, h2⟩ := ih h.2
    exact ⟨m, ⟨h.1, h1⟩, h2⟩

/-- Every valid path can be shortened to a duplicate-free valid path over the
same cells (induction bounded by an explicit fuel). -/
theorem path_dedup_aux {g : Grid} {e : Cell} : ∀ (n : Nat) (q : List Cell) (s : Cell),
    q.length ≤ n → IsPath g s q e → ∃ q2, IsPath g s q2 e ∧ q2.length ≤ q.length ∧
      q2.Nodup ∧ ∀ x ∈ q2, x ∈ q := by
  intro n
  induction n with
  | zero =>
    intro q s hlen h
    have hq : q = [] := List.length_eq_zero.1 (Nat.le_zero.1 hlen)
    subst hq
    exact ⟨[], h, le_rfl, List.nodup_nil, by intro x hx; cases hx⟩
  | succ n ih =>
    intro q s hlen h
    match q with
    | [] => exact ⟨[], h, le_rfl, List.nodup_nil, by intro x hx; cases hx⟩
    | c :: q' =>
      by_cases hc : c ∈ q'
      · obtain ⟨v1, v2, hq'⟩ := List.append_of_mem hc
        subst hq'
        obtain ⟨hstep, hch⟩ := h.1
        obtain ⟨m, _, hm2⟩ := chain_append (u := v1) (v := c :: v2) hch
        have hpath2 : IsPath g s (c :: v2) e := by
          refine ⟨⟨hstep, hm2.2⟩, ?_⟩
          intro x hx
          rcases List.mem_cons.1 hx with hx | hx
          · exact h.2 x (hx ▸ List.mem_cons_self _ _)
          · exact h.2 x (List.mem_cons_of_mem _ (by simp [hx]))
        have hlen2 : (c :: v2).length ≤ n := by
          simp only [List.length_cons, List.length_append] at hlen ⊢
          omega
        obtain ⟨q2, hp, hl, hnd, hsub⟩ := ih (c :: v2) s hlen2 hpath2
        refine ⟨q2, hp, ?_, hnd, ?_⟩
        · simp only [List.length_cons, List.length_append] at hl ⊢
          omega
        · intro x hx
          rcases List.mem_cons.1 (hsub x hx) with hx2 | hx2
          · exact hx2 ▸ List.mem_cons_self _ _
          · exact List.mem_cons_of_mem _ (by simp [hx2])
      · have hpath2 : IsPath g c q' e :=
          ⟨h.1.2, fun x hx => h.2 x (List.mem_cons_of_mem _ hx)⟩
        have hlen2 : q'.length ≤ n := by
          simp only [List.length_cons] at hlen; omega
        obtain ⟨q2, hp, hl, hnd, hsub⟩ := ih q' c hlen2 hpath2
        refine ⟨c :: q2, ⟨⟨h.1.1, hp.1⟩, ?_⟩, by simpa using hl, ?_, ?_⟩
        · intro x hx
          rcases List.mem_cons.1 hx with hx | hx
          · exact h.2 x (hx ▸ List.mem_cons_self _ _)
          · exact hp.2 x hx
        · exact List.nodup_cons.2 ⟨fun hmem => hc (hsub c hmem), hnd⟩
        · intro x hx
          rcases List.mem_cons.1 hx with hx | hx
          · exact hx ▸ List.mem_cons_self _ _
          · exact List.mem_cons_of_mem _ (hsub x hx)

/-- Every valid path can be shortened to a valid path of length at most
`size * size` with the same endpoints. -/
theorem path_bound {g : Grid} {s e : Cell} {q : List Cell} (h : IsPath g s q e) :
    ∃ q2, IsPath g s q2 e ∧ q2.length ≤ q.length ∧ q2.length ≤ g.size * g.size := by
  obtain ⟨q2, hp, hl, hnd, _⟩ := path_dedup_aux q.length q s le_rfl h
  refine ⟨q2, hp, hl, ?_⟩
  have hsub : q2.toFinset ⊆ boundCells g := by
    intro c hcmem
    exact mem_boundCells (hp.2 c (List.mem_toFinset.1 hcmem))
  calc q2.length = q2.toFinset.card := (List.toFinset_card_of_nodup hnd).symm
    _ ≤ (boundCells g).card := Finset.card_le_card hsub
    _ = g.size * g.size := boundCells_card g

/-- Applying a neighbour offset always moves to a different cell. -/
theorem offset_ne (a : Cell) : ∀ off ∈ neighborOffsets,
    ((a.1 + off.1, a.2 + off.2) : Cell) ≠ a := by
  intro off hoff
  fin_cases hoff <;>
    · intro h
      rw [Prod.ext_iff] at h
      omega

/-! ### Settling argument shared by `dijkstra` and `astar` -/

/-- A consistent potential decreases by at most one per step, hence by at most
the length of any chain. -/
theorem hf_chain {hf : Cell → Nat} (hcons : ∀ a b, isStep a b → hf a ≤ hf b + 1) :
    ∀ (sfx : List Cell) (b e : Cell), Chain b sfx e → hf b ≤ sfx.length + hf e := by
  intro sfx
  induction sfx with
  | nil =>
    intro b e h
    have h2 : e = b := h
    rw [h2]
    omega
  | cons c cs ih =>
    intro b e h
    have h1 : hf b ≤ hf c + 1 := hcons b c h.1
    have h2 := ih c e h.2
    simp only [List.length_cons]
    omega

/-- Every cell with a gscore has a predecessor trace no longer than its
gscore (the gscore strictly decreases along `came_from`). -/
theorem uInv_trace {g : Grid} {s goal : Cell} {hf : Cell → Nat} {H : PQ} {cf : CFMap}
    {gs : GMap} {C : List Cell} (hinv : UInv g s goal hf H cf gs C) :
    ∀ (v : Nat) (c : Cell), gs c = some v → ∃ X, CfTrace cf s c X ∧ X.length ≤ v := by
  intro v
  induction v using Nat.strong_induction_on with
  | _ v ih =>
    intro c hc
    cases hcf : cf c with
    | none =>
      have hcs : c = s := by
        rcases (hinv.dom_iff c).1 (by rw [hc]; rfl) with h | h
        · exact h
        · rw [hcf] at h
          exact absurd h (by simp)
      exact ⟨[], hcs ▸ CfTrace.base, by simp⟩
    | some p =>
      obtain ⟨vc, vp, hvc, hvp, hlt⟩ := hinv.cf_lt c p hcf
      have hveq : vc = v := by
        rw [hc] at hvc
        injection hvc with h
        exact h.symm
      obtain ⟨X, hX, hXl⟩ := ih vp (by omega) p hvp
      refine ⟨c :: X, CfTrace.step hcf hX, ?_⟩
      simp only [List.length_cons]
      omega

/-- Frontier lemma: along any valid path ending outside the closed set there
is a scored cell outside the closed set whose gscore plus remaining chain
length is at most the path length. -/
theorem ucs_frontier {g : Grid} {s goal : Cell} {hf : Cell → Nat} {H : PQ} {cf : CFMap}
    {gs : GMap} {C : List Cell} (hinv : UInv g s goal hf H cf gs C) :
    ∀ (q : List Cell) (e : Cell), IsPath g s q e → e ∉ C →
      ∃ b vb sfx, gs b = some vb ∧ b ∉ C ∧ Chain b sfx e ∧
        vb + sfx.length ≤ q.length := by
  intro q
  induction q using List.reverseRecOn with
  | nil =>
    intro e hq he
    have hes : e = s := hq.1
    subst hes
    exact ⟨e, 0, [], hinv.g_start, he, rfl, by simp⟩
  | append_singleton q' c ihq =>
    intro e hq he
    obtain ⟨m, hm1, hm2⟩ := chain_append (u := q') (v := [c]) hq.1
    have hstep : isStep m c := hm2.1
    have hec : e = c := hm2.2
    subst hec
    have hwq' : IsPath g s q' m := ⟨hm1, fun x hx => hq.2 x (List.mem_append.2 (Or.inl hx))⟩
    by_cases hmC : m ∈ C
    · obtain ⟨off, hoff, hoffeq⟩ := hstep
      have hcw : cellWalkable g e := hq.2 e (List.mem_append.2 (Or.inr (by simp)))
      obtain ⟨vm, w, hvm, hw, hwle⟩ :=
        hinv.closed_relaxed m hmC off hoff (hoffeq ▸ hcw)
      obtain ⟨vm2, hvm2, hmin⟩ := hinv.closed_settled m hmC
      have hvmeq : vm2 = vm := by
        rw [hvm] at hvm2
        injection hvm2 with h
        exact h.symm
      have hvmle : vm ≤ q'.length := hvmeq ▸ hmin q' hwq'
      refine ⟨e, w, [], by rw [hoffeq]; exact hw, he, rfl, ?_⟩
      simp only [List.length_append, List.length_cons, List.length_nil]
      omega
    · obtain ⟨b, vb, sfx, h1, h2, h3, h4⟩ := ihq m hwq' hmC
      refine ⟨b, vb, sfx ++ [e], h1, h2, chain_snoc h3 hstep, ?_⟩
      simp only [List.length_append, List.length_cons, List.length_nil]
      omega

/-- Settling: a fresh pop carries the exact `gscore + hf` of its cell as
priority, and that gscore is minimal over all valid paths. -/
theorem ucs_settle {g : Grid} {s goal : Cell} {hf : Cell → Nat} {H : PQ} {cf : CFMap}
    {gs : GMap} {C : List Cell} (hinv : UInv g s goal hf H cf gs C)
    (hcons : ∀ a b, isStep a b → hf a ≤ hf b + 1)
    {p : Nat} {cur : Cell} {rest : PQ}
    (hpop : popMin H = some ((p, cur), rest)) (hfresh : cur ∉ C) :
    ∃ v, gs cur = some v ∧ p = v + hf cur ∧ ∀ q, IsPath g s q cur → v ≤ q.length := by
  obtain ⟨hmem, hrest, hmin⟩ := popMin_spec hpop
  obtain ⟨v, hv, hvle⟩ := hinv.entry_g p cur hmem
  have hfe := hinv.fresh_entry cur v hfresh hv
  have hple : p ≤ v + hf cur := by
    have h2 := hmin _ hfe
    unfold entryLt at h2
    dsimp only at h2
    omega
  refine ⟨v, hv, le_antisymm hple hvle, ?_⟩
  intro q hq
  obtain ⟨b, vb, sfx, hb, hbC, hch, hlen⟩ := ucs_frontier hinv q cur hq hfresh
  have hfb := hinv.fresh_entry b vb hbC hb
  have h4 : p ≤ vb + hf b := by
    have h3 := hmin _ hfb
    unfold entryLt at h3
    dsimp only at h3
    omega
  have h5 : hf b ≤ sfx.length + hf cur := hf_chain hcons sfx b cur hch
  omega

/-- Pointwise update of the gscore weight sum. -/
theorem uMeasure_sum_update (g : Grid) (gs : GMap) {nb : Cell}
    (hmem : nb ∈ boundCells g) (t : Nat) :
    Finset.sum (boundCells g) (fun c => gsWeight g (updateMap gs nb t c)) +
      gsWeight g (gs nb) =
    Finset.sum (boundCells g) (fun c => gsWeight g (gs c)) + 3 * t := by
  have h1 := Finset.add_sum_erase (boundCells g)
    (fun c => gsWeight g (updateMap gs nb t c)) hmem
  have h3 := Finset.add_sum_erase (boundCells g) (fun c => gsWeight g (gs c)) hmem
  have h2 : Finset.sum ((boundCells g).erase nb)
        (fun c => gsWeight g (updateMap gs nb t c)) =
      Finset.sum ((boundCells g).erase nb) (fun c => gsWeight g (gs c)) := by
    refine Finset.sum_congr rfl ?_
    intro c hc
    unfold updateMap
    rw [if_neg (Finset.ne_of_mem_erase hc)]
  have h4 : updateMap gs nb t nb = some t := by
    unfold updateMap
    rw [if_pos rfl]
  dsimp only at h1 h3
  rw [← h1, ← h3, h2, h4]
  simp only [gsWeight]
  omega

/-- A push (the assignment branch of the neighbour loop) preserves the fold
invariant, only lowers gscores, and does not increase the measure. -/
theorem uPush_step {g : Grid} {s goal : Cell} {hf : Cell → Nat} {cur : Cell} {vcur : Nat}
    {C1 : List Cell} {H : PQ} {cf : CFMap} {gs : GMap}
    (hinv : UFInv g s goal hf cur vcur C1 H cf gs)
    {off : Cell} (hoff : off ∈ neighborOffsets) (hvb : vcur ≤ g.size * g.size)
    (hw : cellWalkable g (cur.1 + off.1, cur.2 + off.2))
    (hnotc : ¬((cur.1 + off.1, cur.2 + off.2) ∈ C1 ∧
      (gs (cur.1 + off.1, cur.2 + off.2)).getD 0 ≤ vcur + 1))
    (hcond : ltInf (vcur + 1) (gs (cur.1 + off.1, cur.2 + off.2)) ∨
      ¬ H.any (fun en => en.2 = (cur.1 + off.1, cur.2 + off.2))) :
    UFInv g s goal hf cur vcur C1
        ((vcur + 1 + hf (cur.1 + off.1, cur.2 + off.2),
          ((cur.1 + off.1, cur.2 + off.2) : Cell)) :: H)
        (updateMap cf (cur.1 + off.1, cur.2 + off.2) cur)
        (updateMap gs (cur.1 + off.1, cur.2 + off.2) (vcur + 1)) ∧
    (∀ c w0, gs c = some w0 →
      ∃ w, updateMap gs (cur.1 + off.1, cur.2 + off.2) (vcur + 1) c = some w ∧ w ≤ w0) ∧
    uMeasure g ((vcur + 1 + hf (cur.1 + off.1, cur.2 + off.2),
        ((cur.1 + off.1, cur.2 + off.2) : Cell)) :: H)
      (updateMap gs (cur.1 + off.1, cur.2 + off.2) (vcur + 1)) ≤ uMeasure g H gs := by
  set nb : Cell := (cur.1 + off.1, cur.2 + off.2) with hnbdef
  have hstep : isStep cur nb := ⟨off, hoff, rfl⟩
  have hnbC1 : nb ∉ C1 := by
    intro hmem
    obtain ⟨w, hgsw, hmin⟩ := hinv.closed_settled nb hmem
    obtain ⟨qc, hqc, hqlen⟩ := hinv.realizable cur vcur hinv.cur_g
    have hle := hmin _ (isPath_snoc hqc hstep hw)
    refine hnotc ⟨hmem, ?_⟩
    rw [hgsw]
    simp only [Option.getD_some]
    simp only [List.length_append, List.length_cons, List.length_nil] at hle
    omega
  have hnbcur : nb ≠ cur := fun he => hnbC1 (he ▸ hinv.cur_in)
  have hprev : gs nb = none ∨ ∃ w, gs nb = some w ∧ vcur + 1 < w := by
    cases hgs : gs nb with
    | none => exact Or.inl rfl
    | some w =>
      refine Or.inr ⟨w, rfl, ?_⟩
      rcases hcond with h | h
      · rw [hgs] at h
        exact h
      · exfalso
        have hin := hinv.fresh_entry nb w hnbC1 hgs
        exact h (List.any_eq_true.2 ⟨_, hin, by simp⟩)
  have hnbs : nb ≠ s := by
    intro he
    rcases hprev with h | ⟨w, hsome, hlt⟩
    · rw [he, hinv.g_start] at h
      exact Option.noConfusion h
    · rw [he, hinv.g_start] at hsome
      injection hsome with h2
      omega
  have hgseq : ∀ c, c ≠ nb → updateMap gs nb (vcur + 1) c = gs c := by
    intro c hc
    unfold updateMap
    rw [if_neg hc]
  have hcfeq : ∀ c, c ≠ nb → updateMap cf nb cur c = cf c := by
    intro c hc
    unfold updateMap
    rw [if_neg hc]
  have hgsnb : updateMap gs nb (vcur + 1) nb = some (vcur + 1) := by
    unfold updateMap
    rw [if_pos rfl]
  have hcfnb : updateMap cf nb cur nb = some cur := by
    unfold updateMap
    rw [if_pos rfl]
  have hreal : ∃ q, IsPath g s q nb ∧ q.length = vcur + 1 := by
    obtain ⟨qc, hqc, hqlen⟩ := hinv.realizable cur vcur hinv.cur_g
    exact ⟨qc ++ [nb], isPath_snoc hqc hstep hw, by simp [hqlen]⟩
  refine ⟨⟨?_, ?_, ?_, ?_, ?_, ?_, ?_, ?_, ?_, ?_, ?_, ?_, hinv.not_goal, ?_,
    hinv.cur_in⟩, ?_, ?_⟩
  · rw [hgseq s (fun he => hnbs he.symm)]
    exact hinv.g_start
  · rw [hcfeq s (fun he => hnbs he.symm)]
    exact hinv.cf_start
  · intro c
    by_cases hc : c = nb
    · subst hc
      rw [hgsnb, hcfnb]
      simp
    · rw [hgseq c hc, hcfeq c hc]
      exact hinv.dom_iff c
  · intro c h1 h2
    by_cases hc : c = nb
    · subst hc
      exact hw
    · rw [hgseq c hc] at h1
      exact hinv.dom_walk c h1 h2
  · intro c p hcp
    by_cases hc : c = nb
    · subst hc
      rw [hcfnb] at hcp
      injection hcp with h
      exact ⟨h ▸ hstep, hnbs⟩
    · rw [hcfeq c hc] at hcp
      exact hinv.cf_shape c p hcp
  · intro c p hcp
    by_cases hc : c = nb
    · subst hc
      rw [hcfnb] at hcp
      injection hcp with h
      exact h ▸ hinv.cur_in
    · rw [hcfeq c hc] at hcp
      exact hinv.cf_closed c p hcp
  · intro c p hcp
    by_cases hc : c = nb
    · subst hc
      rw [hcfnb] at hcp
      injection hcp with h
      refine ⟨vcur + 1, vcur, hgsnb, ?_, by omega⟩
      rw [← h, hgseq cur hnbcur.symm]
      exact hinv.cur_g
    · rw [hcfeq c hc] at hcp
      obtain ⟨vc, vp, h1, h2, h3⟩ := hinv.cf_lt c p hcp
      have hpnb : p ≠ nb := fun he => hnbC1 (he ▸ hinv.cf_closed c p hcp)
      exact ⟨vc, vp, by rw [hgseq c hc]; exact h1, by rw [hgseq p hpnb]; exact h2, h3⟩
  · intro c v hcv
    by_cases hc : c = nb
    · subst hc
      rw [hgsnb] at hcv
      injection hcv with h
      rw [← h]
      exact hreal
    · rw [hgseq c hc] at hcv
      exact hinv.realizable c v hcv
  · intro c hcC1
    have hcnb : c ≠ nb := fun he => hnbC1 (he ▸ hcC1)
    obtain ⟨v, h1, h2⟩ := hinv.closed_settled c hcC1
    exact ⟨v, by rw [hgseq c hcnb]; exact h1, h2⟩
  · intro c hcC1 hccur off2 hoff2 hw2
    have hcnb : c ≠ nb := fun he => hnbC1 (he ▸ hcC1)
    obtain ⟨vc, w, h1, h2, h3⟩ := hinv.closed_relaxed c hcC1 hccur off2 hoff2 hw2
    by_cases hnb2 : ((c.1 + off2.1, c.2 + off2.2) : Cell) = nb
    · refine ⟨vc, vcur + 1, by rw [hgseq c hcnb]; exact h1, by rw [hnb2, hgsnb], ?_⟩
      rcases hprev with hp | ⟨w2, hp, hlt⟩
      · rw [hnb2, hp] at h2
        exact Option.noConfusion h2
      · rw [hnb2, hp] at h2
        injection h2 with h4
        omega
    · exact ⟨vc, w, by rw [hgseq c hcnb]; exact h1, by rw [hgseq _ hnb2]; exact h2, h3⟩
  · intro c v hcn hcv
    by_cases hc : c = nb
    · subst hc
      rw [hgsnb] at hcv
      injection hcv with h
      rw [← h]
      exact List.mem_cons_self _ _
    · rw [hgseq c hc] at hcv
      exact List.mem_cons_of_mem _ (hinv.fresh_entry c v hcn hcv)
  · intro pe c hmem
    rcases List.mem_cons.1 hmem with h1 | h1
    · injection h1 with h1a h1b
      subst h1b
      refine ⟨vcur + 1, hgsnb, ?_⟩
      omega
    · obtain ⟨v, h2, h3⟩ := hinv.entry_g pe c h1
      by_cases hc : c = nb
      · subst hc
        refine ⟨vcur + 1, hgsnb, ?_⟩
        rcases hprev with hp | ⟨w, hp, hlt⟩
        · rw [hp] at h2
          exact Option.noConfusion h2
        · rw [hp] at h2
          injection h2 with h4
          omega
      · exact ⟨v, by rw [hgseq c hc]; exact h2, h3⟩
  · rw [hgseq cur hnbcur.symm]
    exact hinv.cur_g
  · intro c w0 hc
    by_cases hcnb : c = nb
    · subst hcnb
      rcases hprev with hp | ⟨w, hp, hlt⟩
      · rw [hp] at hc
        exact Option.noConfusion hc
      · rw [hp] at hc
        injection hc with h4
        exact ⟨vcur + 1, hgsnb, by omega⟩
    · exact ⟨w0, by rw [hgseq c hcnb]; exact hc, le_rfl⟩
  · have hsum := uMeasure_sum_update g gs (mem_boundCells hw) (vcur + 1)
    unfold uMeasure
    simp only [List.length_cons]
    rcases hprev with hp | ⟨w, hp, hlt⟩
    · rw [hp, show gsWeight g none = 3 * (g.size * g.size) + 5 from rfl] at hsum
      omega
    · rw [hp, show gsWeight g (some w) = 3 * w from rfl] at hsum
      omega

/-- One neighbour-relaxation of `dijkstra` preserves the fold invariant, only
lowers gscores, does not increase the measure, and leaves the processed
neighbour relaxed. -/
theorem uRelax_dij {g : Grid} {s goal : Cell} {cur : Cell} {vcur : Nat} {C1 : List Cell}
    {acc : PQ × CFMap × GMap}
    (hinv : UFInv g s goal (fun _ => 0) cur vcur C1 acc.1 acc.2.1 acc.2.2)
    {off : Cell} (hoff : off ∈ neighborOffsets) (hvb : vcur ≤ g.size * g.size) :
    UFInv g s goal (fun _ => 0) cur vcur C1 (dijkstraRelax g cur C1 acc off).1
        (dijkstraRelax g cur C1 acc off).2.1 (dijkstraRelax g cur C1 acc off).2.2 ∧
    (∀ c w0, acc.2.2 c = some w0 →
      ∃ w, (dijkstraRelax g cur C1 acc off).2.2 c = some w ∧ w ≤ w0) ∧
    uMeasure g (dijkstraRelax g cur C1 acc off).1 (dijkstraRelax g cur C1 acc off).2.2 ≤
      uMeasure g acc.1 acc.2.2 ∧
    (cellWalkable g (cur.1 + off.1, cur.2 + off.2) →
      ∃ w, (dijkstraRelax g cur C1 acc off).2.2 (cur.1 + off.1, cur.2 + off.2) = some w ∧
        w ≤ vcur + 1) := by
  obtain ⟨H, cf, gs⟩ := acc
  dsimp only at hinv ⊢
  set nb : Cell := (cur.1 + off.1, cur.2 + off.2) with hnbdef
  unfold dijkstraRelax
  dsimp only
  rw [hinv.cur_g]
  simp only [Option.getD_some]
  by_cases hw : cellWalkable g nb
  · rw [if_pos hw]
    by_cases h1 : nb ∈ C1 ∧ (gs nb).getD 0 ≤ vcur + 1
    · rw [if_pos h1]
      refine ⟨hinv, fun c w0 hc => ⟨w0, hc, le_rfl⟩, le_rfl, ?_⟩
      intro _
      obtain ⟨v, hv, _⟩ := hinv.closed_settled nb h1.1
      refine ⟨v, hv, ?_⟩
      have h2 := h1.2
      rw [hv] at h2
      simpa using h2
    · rw [if_neg h1]
      by_cases h2 : ltInf (vcur + 1) (gs nb) ∨ ¬ H.any (fun en => en.2 = nb)
      · rw [if_pos h2]
        obtain ⟨hA, hB, hC⟩ := uPush_step hinv hoff hvb hw h1 h2
        refine ⟨hA, hB, hC, ?_⟩
        intro _
        refine ⟨vcur + 1, ?_, le_rfl⟩
        rw [hnbdef]
        show updateMap gs (cur.1 + off.1, cur.2 + off.2) (vcur + 1)
          (cur.1 + off.1, cur.2 + off.2) = some (vcur + 1)
        unfold updateMap
        rw [if_pos rfl]
      · rw [if_neg h2]
        refine ⟨hinv, fun c w0 hc => ⟨w0, hc, le_rfl⟩, le_rfl, ?_⟩
        intro _
        have h2a : ¬ ltInf (vcur + 1) (gs nb) := fun ha => h2 (Or.inl ha)
        cases hgs : gs nb with
        | none => exact absurd (show ltInf (vcur + 1) (gs nb) by rw [hgs]; trivial) h2a
        | some w =>
          have h3 : ¬ (vcur + 1 < w) := fun hlt => h2a (by rw [hgs]; exact hlt)
          exact ⟨w, hgs, by omega⟩
  · rw [if_neg hw]
    exact ⟨hinv, fun c w0 hc => ⟨w0, hc, le_rfl⟩, le_rfl, fun hww => absurd hww hw⟩

/-- One neighbour-relaxation of `astar` preserves the fold invariant (with
potential `heuristic · goal`), only lowers gscores, does not increase the
measure, and leaves the processed neighbour relaxed. -/
theorem uRelax_ast {g : Grid} {s goal : Cell} {cur : Cell} {vcur : Nat} {C1 : List Cell}
    {acc : PQ × CFMap × GMap × GMap}
    (hinv : UFInv g s goal (fun c => heuristic c goal) cur vcur C1 acc.1 acc.2.1 acc.2.2.1)
    {off : Cell} (hoff : off ∈ neighborOffsets) (hvb : vcur ≤ g.size * g.size) :
    UFInv g s goal (fun c => heuristic c goal) cur vcur C1
        (astarRelax g goal cur C1 acc off).1
        (astarRelax g goal cur C1 acc off).2.1 (astarRelax g goal cur C1 acc off).2.2.1 ∧
    (∀ c w0, acc.2.2.1 c = some w0 →
      ∃ w, (astarRelax g goal cur C1 acc off).2.2.1 c = some w ∧ w ≤ w0) ∧
    uMeasure g (astarRelax g goal cur C1 acc off).1
        (astarRelax g goal cur C1 acc off).2.2.1 ≤ uMeasure g acc.1 acc.2.2.1 ∧
    (cellWalkable g (cur.1 + off.1, cur.2 + off.2) →
      ∃ w, (astarRelax g goal cur C1 acc off).2.2.1 (cur.1 + off.1, cur.2 + off.2) = some w ∧
        w ≤ vcur + 1) := by
  obtain ⟨H, cf, gs, fs⟩ := acc
  dsimp only at hinv ⊢
  set nb : Cell := (cur.1 + off.1, cur.2 + off.2) with hnbdef
  unfold astarRelax
  dsimp only
  rw [hinv.cur_g]
  simp only [Option.getD_some]
  by_cases hw : cellWalkable g nb
  · rw [if_pos hw]
    by_cases h1 : nb ∈ C1 ∧ (gs nb).getD 0 ≤ vcur + 1
    · rw [if_pos h1]
      refine ⟨hinv, fun c w0 hc => ⟨w0, hc, le_rfl⟩, le_rfl, ?_⟩
      intro _
      obtain ⟨v, hv, _⟩ := hinv.closed_settled nb h1.1
      refine ⟨v, hv, ?_⟩
      have h2 := h1.2
      rw [hv] at h2
      simpa using h2
    · rw [if_neg h1]
      by_cases h2 : ltInf (vcur + 1) (gs nb) ∨ ¬ H.any (fun en => en.2 = nb)
      · rw [if_pos h2]
        obtain ⟨hA, hB, hC⟩ :=
          uPush_step hinv hoff hvb hw h1 h2
        refine ⟨hA, hB, hC, ?_⟩
        intro _
        refine ⟨vcur + 1, ?_, le_rfl⟩
        rw [hnbdef]
        show updateMap gs (cur.1 + off.1, cur.2 + off.2) (vcur + 1)
          (cur.1 + off.1, cur.2 + off.2) = some (vcur + 1)
        unfold updateMap
        rw [if_pos rfl]
      · rw [if_neg h2]
        refine ⟨hinv, fun c w0 hc => ⟨w0, hc, le_rfl⟩, le_rfl, ?_⟩
        intro _
        have h2a : ¬ ltInf (vcur + 1) (gs nb) := fun ha => h2 (Or.inl ha)
        cases hgs : gs nb with
        | none => exact absurd (show ltInf (vcur + 1) (gs nb) by rw [hgs]; trivial) h2a
        | some w =>
          have h3 : ¬ (vcur + 1 < w) := fun hlt => h2a (by rw [hgs]; exact hlt)
          exact ⟨w, hgs, by omega⟩
  · rw [if_neg hw]
    exact ⟨hinv, fun c w0 hc => ⟨w0, hc, le_rfl⟩, le_rfl, fun hww => absurd hww hw⟩

/-- The neighbour fold of `dijkstra` preserves the fold invariant, only lowers
gscores, does not increase the measure, and relaxes every processed
neighbour. -/
theorem uFold_dij {g : Grid} {s goal : Cell} {cur : Cell} {vcur : Nat} {C1 : List Cell}
    (hvb : vcur ≤ g.size * g.size) :
    ∀ (offs : List Cell), (∀ off ∈ offs, off ∈ neighborOffsets) →
    ∀ (acc : PQ × CFMap × GMap),
    UFInv g s goal (fun _ => 0) cur vcur C1 acc.1 acc.2.1 acc.2.2 →
    UFInv g s goal (fun _ => 0) cur vcur C1 (offs.foldl (dijkstraRelax g cur C1) acc).1
        (offs.foldl (dijkstraRelax g cur C1) acc).2.1
        (offs.foldl (dijkstraRelax g cur C1) acc).2.2 ∧
    (∀ c w0, acc.2.2 c = some w0 →
      ∃ w, (offs.foldl (dijkstraRelax g cur C1) acc).2.2 c = some w ∧ w ≤ w0) ∧
    uMeasure g (offs.foldl (dijkstraRelax g cur C1) acc).1
        (offs.foldl (dijkstraRelax g cur C1) acc).2.2 ≤ uMeasure g acc.1 acc.2.2 ∧
    (∀ off ∈ offs, cellWalkable g (cur.1 + off.1, cur.2 + off.2) →
      ∃ w, (offs.foldl (dijkstraRelax g cur C1) acc).2.2 (cur.1 + off.1, cur.2 + off.2) =
        some w ∧ w ≤ vcur + 1) := by
  intro offs
  induction offs with
  | nil =>
    intro _ acc hinv
    exact ⟨hinv, fun c w0 hc => ⟨w0, hc, le_rfl⟩, le_rfl,
      fun off hoff => absurd hoff (List.not_mem_nil off)⟩
  | cons o os ih =>
    intro hsub acc hinv
    have ho : o ∈ neighborOffsets := hsub o (List.mem_cons_self _ _)
    obtain ⟨h1, h2, h3, h4⟩ := uRelax_dij hinv ho hvb
    obtain ⟨hF1, hM1, hMe1, hC4⟩ :=
      ih (fun off hoff => hsub off (List.mem_cons_of_mem _ hoff)) _ h1
    rw [List.foldl_cons]
    refine ⟨hF1, ?_, le_trans hMe1 h3, ?_⟩
    · intro c w0 hc
      obtain ⟨w, hw, hle1⟩ := h2 c w0 hc
      obtain ⟨w2, hw2, hle2⟩ := hM1 c w hw
      exact ⟨w2, hw2, le_trans hle2 hle1⟩
    · intro off hoff hww
      rcases List.mem_cons.1 hoff with heq | hmem
      · subst heq
        obtain ⟨w, hw, hle⟩ := h4 hww
        obtain ⟨w2, hw2, hle2⟩ := hM1 _ w hw
        exact ⟨w2, hw2, by omega⟩
      · exact hC4 off hmem hww

/-- The neighbour fold of `astar` preserves the fold invariant, only lowers
gscores, does not increase the measure, and relaxes every processed
neighbour. -/
theorem uFold_ast {g : Grid} {s goal : Cell} {cur : Cell} {vcur : Nat} {C1 : List Cell}
    (hvb : vcur ≤ g.size * g.size) :
    ∀ (offs : List Cell), (∀ off ∈ offs, off ∈ neighborOffsets) →
    ∀ (acc : PQ × CFMap × GMap × GMap),
    UFInv g s goal (fun c => heuristic c goal) cur vcur C1 acc.1 acc.2.1 acc.2.2.1 →
    UFInv g s goal (fun c => heuristic c goal) cur vcur C1
        (offs.foldl (astarRelax g goal cur C1) acc).1
        (offs.foldl (astarRelax g goal cur C1) acc).2.1
        (offs.foldl (astarRelax g goal cur C1) acc).2.2.1 ∧
    (∀ c w0, acc.2.2.1 c = some w0 →
      ∃ w, (offs.foldl (astarRelax g goal cur C1) acc).2.2.1 c = some w ∧ w ≤ w0) ∧
    uMeasure g (offs.foldl (astarRelax g goal cur C1) acc).1
        (offs.foldl (astarRelax g goal cur C1) acc).2.2.1 ≤ uMeasure g acc.1 acc.2.2.1 ∧
    (∀ off ∈ offs, cellWalkable g (cur.1 + off.1, cur.2 + off.2) →
      ∃ w, (offs.foldl (astarRelax g goal cur C1) acc).2.2.1 (cur.1 + off.1, cur.2 + off.2) =
        some w ∧ w ≤ vcur + 1) := by
  intro offs
  induction offs with
  | nil =>
    intro _ acc hinv
    exact ⟨hinv, fun c w0 hc => ⟨w0, hc, le_rfl⟩, le_rfl,
      fun off hoff => absurd hoff (List.not_mem_nil off)⟩
  | cons o os ih =>
    intro hsub acc hinv
    have ho : o ∈ neighborOffsets := hsub o (List.mem_cons_self _ _)
    obtain ⟨h1, h2, h3, h4⟩ := uRelax_ast hinv ho hvb
    obtain ⟨hF1, hM1, hMe1, hC4⟩ :=
      ih (fun off hoff => hsub off (List.mem_cons_of_mem _ hoff)) _ h1
    rw [List.foldl_cons]
    refine ⟨hF1, ?_, le_trans hMe1 h3, ?_⟩
    · intro c w0 hc
      obtain ⟨w, hw, hle1⟩ := h2 c w0 hc
      obtain ⟨w2, hw2, hle2⟩ := hM1 c w hw
      exact ⟨w2, hw2, le_trans hle2 hle1⟩
    · intro off hoff hww
      rcases List.mem_cons.1 hoff with heq | hmem
      · subst heq
        obtain ⟨w, hw, hle⟩ := h4 hww
        obtain ⟨w2, hw2, hle2⟩ := hM1 _ w hw
        exact ⟨w2, hw2, by omega⟩
      · exact hC4 off hmem hww

/-- A relaxation from an already closed, settled and fully relaxed cell is a
no-op (`dijkstra`). -/
theorem uStale_one_dij {g : Grid} {cur : Cell} {C : List Cell} {acc : PQ × CFMap × GMap}
    {vcur : Nat} {off : Cell}
    (hcur : acc.2.2 cur = some vcur)
    (hrel : cellWalkable g (cur.1 + off.1, cur.2 + off.2) →
      ∃ w, acc.2.2 (cur.1 + off.1, cur.2 + off.2) = some w ∧ w ≤ vcur + 1)
    (hany : cellWalkable g (cur.1 + off.1, cur.2 + off.2) →
      (cur.1 + off.1, cur.2 + off.2) ∉ C →
      acc.1.any (fun en => en.2 = (cur.1 + off.1, cur.2 + off.2)) = true) :
    dijkstraRelax g cur C acc off = acc := by
  obtain ⟨H, cf, gs⟩ := acc
  dsimp only at hcur hrel hany ⊢
  set nb : Cell := (cur.1 + off.1, cur.2 + off.2) with hnbdef
  unfold dijkstraRelax
  dsimp only
  rw [hcur]
  simp only [Option.getD_some]
  by_cases hw : cellWalkable g nb
  · rw [if_pos hw]
    obtain ⟨w, hwv, hwle⟩ := hrel hw
    by_cases hC : nb ∈ C
    · rw [if_pos ⟨hC, by rw [hwv]; simpa using hwle⟩]
    · rw [if_neg (fun hand => hC hand.1)]
      rw [if_neg ?_]
      intro h
      rcases h with h | h
      · rw [hwv] at h
        have h2 : vcur + 1 < w := h
        omega
      · exact h (hany hw hC)
  · rw [if_neg hw]

/-- A relaxation from an already closed, settled and fully relaxed cell is a
no-op (`astar`). -/
theorem uStale_one_ast {g : Grid} {goal cur : Cell} {C : List Cell}
    {acc : PQ × CFMap × GMap × GMap} {vcur : Nat} {off : Cell}
    (hcur : acc.2.2.1 cur = some vcur)
    (hrel : cellWalkable g (cur.1 + off.1, cur.2 + off.2) →
      ∃ w, acc.2.2.1 (cur.1 + off.1, cur.2 + off.2) = some w ∧ w ≤ vcur + 1)
    (hany : cellWalkable g (cur.1 + off.1, cur.2 + off.2) →
      (cur.1 + off.1, cur.2 + off.2) ∉ C →
      acc.1.any (fun en => en.2 = (cur.1 + off.1, cur.2 + off.2)) = true) :
    astarRelax g goal cur C acc off = acc := by
  obtain ⟨H, cf, gs, fs⟩ := acc
  dsimp only at hcur hrel hany ⊢
  set nb : Cell := (cur.1 + off.1, cur.2 + off.2) with hnbdef
  unfold astarRelax
  dsimp only
  rw [hcur]
  simp only [Option.getD_some]
  by_cases hw : cellWalkable g nb
  · rw [if_pos hw]
    obtain ⟨w, hwv, hwle⟩ := hrel hw
    by_cases hC : nb ∈ C
    · rw [if_pos ⟨hC, by rw [hwv]; simpa using hwle⟩]
    · rw [if_neg (fun hand => hC hand.1)]
      rw [if_neg ?_]
      intro h
      rcases h with h | h
      · rw [hwv] at h
        have h2 : vcur + 1 < w := h
        omega
      · exact h (hany hw hC)
  · rw [if_neg hw]

/-- The whole neighbour fold from a stale pop is a no-op (`dijkstra`). -/
theorem uStale_fold_dij {g : Grid} {cur : Cell} {C : List Cell} {acc : PQ × CFMap × GMap}
    {vcur : Nat}
    (hcur : acc.2.2 cur = some vcur)
    (hrel : ∀ off ∈ neighborOffsets, cellWalkable g (cur.1 + off.1, cur.2 + off.2) →
      ∃ w, acc.2.2 (cur.1 + off.1, cur.2 + off.2) = some w ∧ w ≤ vcur + 1)
    (hany : ∀ off ∈ neighborOffsets, cellWalkable g (cur.1 + off.1, cur.2 + off.2) →
      (cur.1 + off.1, cur.2 + off.2) ∉ C →
      acc.1.any (fun en => en.2 = (cur.1 + off.1, cur.2 + off.2)) = true) :
    ∀ (offs : List Cell), (∀ off ∈ offs, off ∈ neighborOffsets) →
      offs.foldl (dijkstraRelax g cur C) acc = acc := by
  intro offs
  induction offs with
  | nil => intro _; rfl
  | cons o os ih =>
    intro hsub
    have ho : o ∈ neighborOffsets := hsub o (List.mem_cons_self _ _)
    rw [List.foldl_cons, uStale_one_dij hcur (hrel o ho) (hany o ho)]
    exact ih (fun off hoff => hsub off (List.mem_cons_of_mem _ hoff))

/-- The whole neighbour fold from a stale pop is a no-op (`astar`). -/
theorem uStale_fold_ast {g : Grid} {goal cur : Cell} {C : List Cell}
    {acc : PQ × CFMap × GMap × GMap} {vcur : Nat}
    (hcur : acc.2.2.1 cur = some vcur)
    (hrel : ∀ off ∈ neighborOffsets, cellWalkable g (cur.1 + off.1, cur.2 + off.2) →
      ∃ w, acc.2.2.1 (cur.1 + off.1, cur.2 + off.2) = some w ∧ w ≤ vcur + 1)
    (hany : ∀ off ∈ neighborOffsets, cellWalkable g (cur.1 + off.1, cur.2 + off.2) →
      (cur.1 + off.1, cur.2 + off.2) ∉ C →
      acc.1.any (fun en => en.2 = (cur.1 + off.1, cur.2 + off.2)) = true) :
    ∀ (offs : List Cell), (∀ off ∈ offs, off ∈ neighborOffsets) →
      offs.foldl (astarRelax g goal cur C) acc = acc := by
  intro offs
  induction offs with
  | nil => intro _; rfl
  | cons o os ih =>
    intro hsub
    have ho : o ∈ neighborOffsets := hsub o (List.mem_cons_self _ _)
    rw [List.foldl_cons, uStale_one_ast hcur (hrel o ho) (hany o ho)]
    exact ih (fun off hoff => hsub off (List.mem_cons_of_mem _ hoff))

/-- `dijkstraLoop` step equation: empty heap. -/
theorem dijkstraLoop_empty {g : Grid} {goal : Cell} {bt n : Nat} {st : DijkstraState}
    (h : popMin st.oheap = none) :
    dijkstraLoop g goal bt (n + 1) st = some [] := by
  unfold dijkstraLoop
  rw [h]

/-- `dijkstraLoop` step equation: a popped entry. -/
theorem dijkstraLoop_pop {g : Grid} {goal : Cell} {bt n : Nat} {st : DijkstraState}
    {pr : Nat} {current : Cell} {rest : PQ}
    (h : popMin st.oheap = some ((pr, current), rest)) :
    dijkstraLoop g goal bt (n + 1) st =
      if current = goal then backtrack st.came_from bt current []
      else
        dijkstraLoop g goal bt n
          ⟨(neighborOffsets.foldl (dijkstraRelax g current
              (if current ∈ st.close_set then st.close_set else current :: st.close_set))
              (rest, st.came_from, st.gscore)).1,
           (neighborOffsets.foldl (dijkstraRelax g current
              (if current ∈ st.close_set then st.close_set else current :: st.close_set))
              (rest, st.came_from, st.gscore)).2.1,
           (neighborOffsets.foldl (dijkstraRelax g current
              (if current ∈ st.close_set then st.close_set else current :: st.close_set))
              (rest, st.came_from, st.gscore)).2.2,
           if current ∈ st.close_set then st.close_set else current :: st.close_set⟩ := by
  conv_lhs => unfold dijkstraLoop
  rw [h]

/-- `astarLoop` step equation: empty heap. -/
theorem astarLoop_empty {g : Grid} {goal : Cell} {bt n : Nat} {st : AStarState}
    (h : popMin st.oheap = none) :
    astarLoop g goal bt (n + 1) st = some [] := by
  unfold astarLoop
  rw [h]

/-- `astarLoop` step equation: a popped entry. -/
theorem astarLoop_pop {g : Grid} {goal : Cell} {bt n : Nat} {st : AStarState}
    {pr : Nat} {current : Cell} {rest : PQ}
    (h : popMin st.oheap = some ((pr, current), rest)) :
    astarLoop g goal bt (n + 1) st =
      if current = goal then backtrack st.came_from bt current []
      else
        astarLoop g goal bt n
          ⟨(neighborOffsets.foldl (astarRelax g goal current
              (if current ∈ st.close_set then st.close_set else current :: st.close_set))
              (rest, st.came_from, st.gscore, st.fscore)).1,
           (neighborOffsets.foldl (astarRelax g goal current
              (if current ∈ st.close_set then st.close_set else current :: st.close_set))
              (rest, st.came_from, st.gscore, st.fscore)).2.1,
           (neighborOffsets.foldl (astarRelax g goal current
              (if current ∈ st.close_set then st.close_set else current :: st.close_set))
              (rest, st.came_from, st.gscore, st.fscore)).2.2.1,
           (neighborOffsets.foldl (astarRelax g goal current
              (if current ∈ st.close_set then st.close_set else current :: st.close_set))
              (rest, st.came_from, st.gscore, st.fscore)).2.2.2,
           if current ∈ st.close_set then st.close_set else current :: st.close_set⟩ := by
  conv_lhs => unfold astarLoop
  rw [h]

/-- The Manhattan heuristic is consistent: it changes by at most one along a
4-directional step. -/
theorem heuristic_consistent (goal : Cell) : ∀ a b : Cell, isStep a b →
    heuristic a goal ≤ heuristic b goal + 1 := by
  intro a b hst
  obtain ⟨off, hoff, heq⟩ := hst
  subst heq
  fin_cases hoff <;>
    · unfold heuristic
      dsimp only
      omega

/-- Master lemma for the `dijkstra` loop: with the invariant and enough fuel
it returns either a valid, start-avoiding, length-minimal path to the goal,
or the empty path together with unreachability of the goal. -/
theorem dijkstraLoop_master (g : Grid) (s goal : Cell) :
    ∀ (fuel : Nat) (st : DijkstraState),
      UInv g s goal (fun _ => 0) st.oheap st.came_from st.gscore st.close_set →
      uMeasure g st.oheap st.gscore < fuel →
      ∃ out, dijkstraLoop g goal (btFuelOf g) fuel st = some out ∧
        ((IsPath g s out goal ∧ s ∉ out ∧
          ∀ q, IsPath g s q goal → out.length ≤ q.length) ∨
         (out = [] ∧ ∀ q, ¬ IsPath g s q goal)) := by
  have hcons0 : ∀ a b : Cell, isStep a b →
      (fun _ : Cell => (0 : Nat)) a ≤ (fun _ : Cell => (0 : Nat)) b + 1 :=
    fun _ _ _ => Nat.zero_le _
  intro fuel
  induction fuel with
  | zero => intro st _ h; exact absurd h (Nat.not_lt_zero _)
  | succ n ih =>
    intro st hinv hm
    cases hpop : popMin st.oheap with
    | none =>
      refine ⟨[], dijkstraLoop_empty hpop, Or.inr ⟨rfl, ?_⟩⟩
      intro q hq
      obtain ⟨b, vb, sfx, hb, hbC, -, -⟩ := ucs_frontier hinv q goal hq hinv.not_goal
      have hfe := hinv.fresh_entry b vb hbC hb
      rw [popMin_none hpop] at hfe
      exact absurd hfe (List.not_mem_nil _)
    | some pe =>
      obtain ⟨⟨p, cur⟩, rest⟩ := pe
      obtain ⟨hmem, hrest, hmin⟩ := popMin_spec hpop
      rw [dijkstraLoop_pop hpop]
      by_cases hgoal : cur = goal
      · rw [if_pos hgoal]
        subst hgoal
        obtain ⟨v, hv, hpeq, hminv⟩ := ucs_settle hinv hcons0 hpop hinv.not_goal
        obtain ⟨X, hX, hXlen⟩ := uInv_trace hinv v cur hv
        obtain ⟨q0, hq0, hq0len⟩ := hinv.realizable cur v hv
        obtain ⟨q2, hq2, hq2l, hq2b⟩ := path_bound hq0
        have hvn : v ≤ g.size * g.size := le_trans (hminv q2 hq2) hq2b
        have hbt := backtrack_of_trace hinv.cf_start hX (btFuelOf g) []
          (by unfold btFuelOf; omega)
        have hshape : ∀ c p2, st.came_from c = some p2 →
            isStep p2 c ∧ cellWalkable g c ∧ c ≠ s := by
          intro c p2 hc
          obtain ⟨h1, h2⟩ := hinv.cf_shape c p2 hc
          refine ⟨h1, ?_, h2⟩
          exact hinv.dom_walk c ((hinv.dom_iff c).2 (Or.inr (by rw [hc]; rfl))) h2
        obtain ⟨⟨hchain, hwalkp⟩, hnmem⟩ := cfTrace_path hshape hX
        refine ⟨X.reverse, by rw [hbt]; simp, Or.inl ⟨⟨hchain, hwalkp⟩, ?_, ?_⟩⟩
        · intro hs
          exact hnmem (List.mem_reverse.1 hs)
        · intro q hq
          have h1 := hminv q hq
          simp only [List.length_reverse]
          omega
      · rw [if_neg hgoal]
        by_cases hstale : cur ∈ st.close_set
        · -- stale pop: the fold is a no-op, the closed set is unchanged
          simp only [if_pos hstale]
          obtain ⟨vcur, hvc, hvmin⟩ := hinv.closed_settled cur hstale
          have hrel : ∀ off ∈ neighborOffsets,
              cellWalkable g (cur.1 + off.1, cur.2 + off.2) →
              ∃ w, st.gscore (cur.1 + off.1, cur.2 + off.2) = some w ∧ w ≤ vcur + 1 := by
            intro off hoff hw
            obtain ⟨vc, w, h1, h2, h3⟩ := hinv.closed_relaxed cur hstale off hoff hw
            have h4 : vc = vcur := by
              rw [hvc] at h1
              injection h1 with h5
              exact h5.symm
            exact ⟨w, h2, by omega⟩
          have hany : ∀ off ∈ neighborOffsets,
              cellWalkable g (cur.1 + off.1, cur.2 + off.2) →
              (cur.1 + off.1, cur.2 + off.2) ∉ st.close_set →
              rest.any (fun en => en.2 = (cur.1 + off.1, cur.2 + off.2)) = true := by
            intro off hoff hw hnC
            obtain ⟨w, hgw, -⟩ := hrel off hoff hw
            have hfe := hinv.fresh_entry _ w hnC hgw
            have hne : ((w + (fun _ : Cell => (0 : Nat)) (cur.1 + off.1, cur.2 + off.2),
                ((cur.1 + off.1, cur.2 + off.2) : Cell)) : Nat × Cell) ≠ (p, cur) := by
              intro he
              exact offset_ne cur off hoff (congrArg Prod.snd he)
            refine List.any_eq_true.2
              ⟨(w + (fun _ : Cell => (0 : Nat)) (cur.1 + off.1, cur.2 + off.2),
                ((cur.1 + off.1, cur.2 + off.2) : Cell)), ?_, by simp⟩
            rw [hrest]
            exact (List.mem_erase_of_ne hne).2 hfe
          have hfold := @uStale_fold_dij g cur st.close_set
            (rest, st.came_from, st.gscore) vcur
            hvc hrel hany neighborOffsets (fun _ h => h)
          rw [hfold]
          have hlen : rest.length + 1 = st.oheap.length := by
            have hpos := List.length_pos_of_mem hmem
            rw [hrest, List.length_erase_of_mem hmem]
            omega
          have hmeq : uMeasure g rest st.gscore + 1 = uMeasure g st.oheap st.gscore := by
            unfold uMeasure
            omega
          refine ih ⟨rest, st.came_from, st.gscore, st.close_set⟩ ?_ ?_
          · refine ⟨hinv.g_start, hinv.cf_start, hinv.dom_iff, hinv.dom_walk, hinv.cf_shape,
              hinv.cf_closed, hinv.cf_lt, hinv.realizable, hinv.closed_settled,
              hinv.closed_relaxed, ?_, ?_, hinv.not_goal⟩
            · intro c v2 hcn hcv
              have hfe := hinv.fresh_entry c v2 hcn hcv
              have hne : ((v2 + (fun _ : Cell => (0 : Nat)) c, c) : Nat × Cell) ≠ (p, cur) := by
                intro he
                have h6 : c = cur := congrArg Prod.snd he
                exact hcn (h6.symm ▸ hstale)
              rw [hrest]
              exact (List.mem_erase_of_ne hne).2 hfe
            · intro pe c hc
              refine hinv.entry_g pe c ?_
              rw [hrest] at hc
              exact List.mem_of_mem_erase hc
          · show uMeasure g rest st.gscore < n
            omega
        · -- fresh pop: settle `cur`, relax its neighbours
          simp only [if_neg hstale]
          obtain ⟨vcur, hv, hpeq, hminv⟩ := ucs_settle hinv hcons0 hpop hstale
          obtain ⟨q0, hq0, hq0len⟩ := hinv.realizable cur vcur hv
          obtain ⟨q2, hq2, hq2l, hq2b⟩ := path_bound hq0
          have hvb : vcur ≤ g.size * g.size := le_trans (hminv q2 hq2) hq2b
          have hF0 : UFInv g s goal (fun _ => 0) cur vcur (cur :: st.close_set)
              rest st.came_from st.gscore := by
            refine ⟨hinv.g_start, hinv.cf_start, hinv.dom_iff, hinv.dom_walk,
              hinv.cf_shape, ?_, hinv.cf_lt, hinv.realizable, ?_, ?_, ?_, ?_, ?_,
              hv, List.mem_cons_self _ _⟩
            · intro c p2 hc
              exact List.mem_cons_of_mem _ (hinv.cf_closed c p2 hc)
            · intro c hc
              rcases List.mem_cons.1 hc with h1 | h1
              · subst h1
                exact ⟨vcur, hv, hminv⟩
              · exact hinv.closed_settled c h1
            · intro c hc hne off hoff hw
              rcases List.mem_cons.1 hc with h1 | h1
              · exact absurd h1 hne
              · exact hinv.closed_relaxed c h1 off hoff hw
            · intro c v2 hcn hcv
              have hcC : c ∉ st.close_set := fun h => hcn (List.mem_cons_of_mem _ h)
              have hccur : c ≠ cur := fun h => hcn (h ▸ List.mem_cons_self _ _)
              have hfe := hinv.fresh_entry c v2 hcC hcv
              have hne : ((v2 + (fun _ : Cell => (0 : Nat)) c, c) : Nat × Cell) ≠ (p, cur) := by
                intro he
                exact hccur (congrArg Prod.snd he)
              rw [hrest]
              exact (List.mem_erase_of_ne hne).2 hfe
            · intro pe c hc
              refine hinv.entry_g pe c ?_
              rw [hrest] at hc
              exact List.mem_of_mem_erase hc
            · intro hgc
              rcases List.mem_cons.1 hgc with h1 | h1
              · exact hgoal h1.symm
              · exact hinv.not_goal h1
          obtain ⟨hFf, hMf, hMef, hCf⟩ :=
            uFold_dij hvb neighborOffsets (fun _ h => h)
              (rest, st.came_from, st.gscore) hF0
          have hMef2 : uMeasure g
              (neighborOffsets.foldl (dijkstraRelax g cur (cur :: st.close_set))
                (rest, st.came_from, st.gscore)).1
              (neighborOffsets.foldl (dijkstraRelax g cur (cur :: st.close_set))
                (rest, st.came_from, st.gscore)).2.2 ≤ uMeasure g rest st.gscore := hMef
          have hlen : rest.length + 1 = st.oheap.length := by
            have hpos := List.length_pos_of_mem hmem
            rw [hrest, List.length_erase_of_mem hmem]
            omega
          have hmeq : uMeasure g rest st.gscore + 1 = uMeasure g st.oheap st.gscore := by
            unfold uMeasure
            omega
          refine ih _ ?_ ?_
          · refine ⟨hFf.g_start, hFf.cf_start, hFf.dom_iff, hFf.dom_walk, hFf.cf_shape,
              hFf.cf_closed, hFf.cf_lt, hFf.realizable, hFf.closed_settled, ?_,
              hFf.fresh_entry, hFf.entry_g, hFf.not_goal⟩
            intro c hc off hoff hw
            by_cases hccur : c = cur
            · subst hccur
              obtain ⟨w, hwv, hwle⟩ := hCf off hoff hw
              exact ⟨vcur, w, hFf.cur_g, hwv, by omega⟩
            · rcases List.mem_cons.1 hc with h1 | h1
              · exact absurd h1 hccur
              · exact hFf.closed_relaxed c (List.mem_cons_of_mem _ h1) hccur off hoff hw
          · show uMeasure g
              (neighborOffsets.foldl (dijkstraRelax g cur (cur :: st.close_set))
                (rest, st.came_from, st.gscore)).1
              (neighborOffsets.foldl (dijkstraRelax g cur (cur :: st.close_set))
                (rest, st.came_from, st.gscore)).2.2 < n
            omega

/-- Initial-state measure bound for `dijkstra`/`astar`: one heap entry and a
single gscore binding fit (strictly) in `searchFuel`. -/
theorem uMeasure_init (g : Grid) (s : Cell) (e : Nat × Cell) :
    uMeasure g [e] (updateMap (fun _ => none) s 0) < searchFuel g := by
  have h1 := Finset.sum_le_card_nsmul (boundCells g)
    (fun c => gsWeight g (updateMap (fun _ => none) s 0 c))
    (3 * (g.size * g.size) + 5) ?_
  · rw [boundCells_card, smul_eq_mul] at h1
    have h2 : (g.size * g.size + 2) * (3 * (g.size * g.size) + 8) =
        g.size * g.size * (3 * (g.size * g.size) + 8) +
          2 * (3 * (g.size * g.size) + 8) := by ring
    have h3 : g.size * g.size * (3 * (g.size * g.size) + 5) ≤
        g.size * g.size * (3 * (g.size * g.size) + 8) :=
      Nat.mul_le_mul_left _ (by omega)
    unfold uMeasure searchFuel
    simp only [List.length_cons, List.length_nil]
    omega
  · intro x _
    dsimp only
    unfold updateMap
    by_cases hx : x = s
    · rw [if_pos hx]
      exact Nat.zero_le _
    · rw [if_neg hx]
      exact Nat.le_refl _

/-- The shared initial state of `dijkstra`/`astar` satisfies the loop
invariant. -/
theorem uInv_init (g : Grid) (s goal : Cell) (hf : Cell → Nat) {e : Nat}
    (he : e = hf s) :
    UInv g s goal hf [(e, s)] (fun _ => none) (updateMap (fun _ => none) s 0) [] := by
  refine ⟨?_, rfl, ?_, ?_, ?_, ?_, ?_, ?_, ?_, ?_, ?_, ?_, List.not_mem_nil goal⟩
  · unfold updateMap
    rw [if_pos rfl]
  · intro c
    unfold updateMap
    by_cases hc : c = s
    · rw [if_pos hc]
      simp [hc]
    · rw [if_neg hc]
      simp [hc]
  · intro c h1 h2
    unfold updateMap at h1
    rw [if_neg h2] at h1
    exact absurd h1 (by simp)
  · intro c p h
    exact Option.noConfusion h
  · intro c p h
    exact Option.noConfusion h
  · intro c p h
    exact Option.noConfusion h
  · intro c v h
    unfold updateMap at h
    by_cases hc : c = s
    · rw [if_pos hc] at h
      injection h with h2
      subst hc
      refine ⟨[], ⟨rfl, ?_⟩, by rw [← h2]; rfl⟩
      intro x hx
      exact absurd hx (List.not_mem_nil x)
    · rw [if_neg hc] at h
      exact Option.noConfusion h
  · intro c hc
    exact absurd hc (List.not_mem_nil c)
  · intro c hc
    exact absurd hc (List.not_mem_nil c)
  · intro c v hcn hcv
    unfold updateMap at hcv
    by_cases hc : c = s
    · rw [if_pos hc] at hcv
      injection hcv with h2
      subst hc
      have h3 : ((v + hf c, c) : Nat × Cell) = (e, c) := by
        rw [← h2, he, Nat.zero_add]
      rw [h3]
      exact List.mem_cons_self _ _
    · rw [if_neg hc] at hcv
      exact Option.noConfusion hcv
  · intro pe c h
    have h1 : (pe, c) = (e, s) := List.mem_singleton.1 h
    injection h1 with h1a h1b
    subst h1b
    refine ⟨0, ?_, ?_⟩
    · unfold updateMap
      rw [if_pos rfl]
    · rw [Nat.zero_add, ← he, h1a]

/-- `dijkstra` returns a valid, start-avoiding, length-minimal path when one
exists, and the empty path exactly when the goal is unreachable. -/
theorem dijkstra_master (g : Grid) (s goal : Cell) :
    ∃ out, dijkstra g s goal = some out ∧
      ((IsPath g s out goal ∧ s ∉ out ∧
        ∀ q, IsPath g s q goal → out.length ≤ q.length) ∨
       (out = [] ∧ ∀ q, ¬ IsPath g s q goal)) := by
  unfold dijkstra
  refine dijkstraLoop_master g s goal (searchFuel g) _ ?_ ?_
  · exact uInv_init g s goal (fun _ => 0) rfl
  · show uMeasure g [(0, s)] (updateMap (fun _ => none) s 0) < searchFuel g
    exact uMeasure_init g s (0, s)

/-- Master lemma for the `astar` loop: with the invariant and enough fuel it
returns either a valid, start-avoiding, length-minimal path to the goal, or
the empty path together with unreachability of the goal. -/
theorem astarLoop_master (g : Grid) (s goal : Cell) :
    ∀ (fuel : Nat) (st : AStarState),
      UInv g s goal (fun c => heuristic c goal) st.oheap st.came_from st.gscore
        st.close_set →
      uMeasure g st.oheap st.gscore < fuel →
      ∃ out, astarLoop g goal (btFuelOf g) fuel st = some out ∧
        ((IsPath g s out goal ∧ s ∉ out ∧
          ∀ q, IsPath g s q goal → out.length ≤ q.length) ∨
         (out = [] ∧ ∀ q, ¬ IsPath g s q goal)) := by
  have hconsh : ∀ a b : Cell, isStep a b →
      (fun c => heuristic c goal) a ≤ (fun c => heuristic c goal) b + 1 :=
    heuristic_consistent goal
  intro fuel
  induction fuel with
  | zero => intro st _ h; exact absurd h (Nat.not_lt_zero _)
  | succ n ih =>
    intro st hinv hm
    cases hpop : popMin st.oheap with
    | none =>
      refine ⟨[], astarLoop_empty hpop, Or.inr ⟨rfl, ?_⟩⟩
      intro q hq
      obtain ⟨b, vb, sfx, hb, hbC, -, -⟩ := ucs_frontier hinv q goal hq hinv.not_goal
      have hfe := hinv.fresh_entry b vb hbC hb
      rw [popMin_none hpop] at hfe
      exact absurd hfe (List.not_mem_nil _)
    | some pe =>
      obtain ⟨⟨p, cur⟩, rest⟩ := pe
      obtain ⟨hmem, hrest, hmin⟩ := popMin_spec hpop
      rw [astarLoop_pop hpop]
      by_cases hgoal : cur = goal
      · rw [if_pos hgoal]
        subst hgoal
        obtain ⟨v, hv, hpeq, hminv⟩ := ucs_settle hinv hconsh hpop hinv.not_goal
        obtain ⟨X, hX, hXlen⟩ := uInv_trace hinv v cur hv
        obtain ⟨q0, hq0, hq0len⟩ := hinv.realizable cur v hv
        obtain ⟨q2, hq2, hq2l, hq2b⟩ := path_bound hq0
        have hvn : v ≤ g.size * g.size := le_trans (hminv q2 hq2) hq2b
        have hbt := backtrack_of_trace hinv.cf_start hX (btFuelOf g) []
          (by unfold btFuelOf; omega)
        have hshape : ∀ c p2, st.came_from c = some p2 →
            isStep p2 c ∧ cellWalkable g c ∧ c ≠ s := by
          intro c p2 hc
          obtain ⟨h1, h2⟩ := hinv.cf_shape c p2 hc
          refine ⟨h1, ?_, h2⟩
          exact hinv.dom_walk c ((hinv.dom_iff c).2 (Or.inr (by rw [hc]; rfl))) h2
        obtain ⟨⟨hchain, hwalkp⟩, hnmem⟩ := cfTrace_path hshape hX
        refine ⟨X.reverse, by rw [hbt]; simp, Or.inl ⟨⟨hchain, hwalkp⟩, ?_, ?_⟩⟩
        · intro hs
          exact hnmem (List.mem_reverse.1 hs)
        · intro q hq
          have h1 := hminv q hq
          simp only [List.length_reverse]
          omega
      · rw [if_neg hgoal]
        by_cases hstale : cur ∈ st.close_set
        · -- stale pop: the fold is a no-op, the closed set is unchanged
          simp only [if_pos hstale]
          obtain ⟨vcur, hvc, hvmin⟩ := hinv.closed_settled cur hstale
          have hrel : ∀ off ∈ neighborOffsets,
              cellWalkable g (cur.1 + off.1, cur.2 + off.2) →
              ∃ w, st.gscore (cur.1 + off.1, cur.2 + off.2) = some w ∧ w ≤ vcur + 1 := by
            intro off hoff hw
            obtain ⟨vc, w, h1, h2, h3⟩ := hinv.closed_relaxed cur hstale off hoff hw
            have h4 : vc = vcur := by
              rw [hvc] at h1
              injection h1 with h5
              exact h5.symm
            exact ⟨w, h2, by omega⟩
          have hany : ∀ off ∈ neighborOffsets,
              cellWalkable g (cur.1 + off.1, cur.2 + off.2) →
              (cur.1 + off.1, cur.2 + off.2) ∉ st.close_set →
              rest.any (fun en => en.2 = (cur.1 + off.1, cur.2 + off.2)) = true := by
            intro off hoff hw hnC
            obtain ⟨w, hgw, -⟩ := hrel off hoff hw
            have hfe := hinv.fresh_entry _ w hnC hgw
            have hne : ((w + (fun c => heuristic c goal) (cur.1 + off.1, cur.2 + off.2),
                ((cur.1 + off.1, cur.2 + off.2) : Cell)) : Nat × Cell) ≠ (p, cur) := by
              intro he
              exact offset_ne cur off hoff (congrArg Prod.snd he)
            refine List.any_eq_true.2
              ⟨(w + (fun c => heuristic c goal) (cur.1 + off.1, cur.2 + off.2),
                ((cur.1 + off.1, cur.2 + off.2) : Cell)), ?_, by simp⟩
            rw [hrest]
            exact (List.mem_erase_of_ne hne).2 hfe
          have hfold := @uStale_fold_ast g goal cur st.close_set
            (rest, st.came_from, st.gscore, st.fscore) vcur
            hvc hrel hany neighborOffsets (fun _ h => h)
          rw [hfold]
          have hlen : rest.length + 1 = st.oheap.length := by
            have hpos := List.length_pos_of_mem hmem
            rw [hrest, List.length_erase_of_mem hmem]
            omega
          have hmeq : uMeasure g rest st.gscore + 1 = uMeasure g st.oheap st.gscore := by
            unfold uMeasure
            omega
          refine ih ⟨rest, st.came_from, st.gscore, st.fscore, st.close_set⟩ ?_ ?_
          · refine ⟨hinv.g_start, hinv.cf_start, hinv.dom_iff, hinv.dom_walk, hinv.cf_shape,
              hinv.cf_closed, hinv.cf_lt, hinv.realizable, hinv.closed_settled,
              hinv.closed_relaxed, ?_, ?_, hinv.not_goal⟩
            · intro c v2 hcn hcv
              have hfe := hinv.fresh_entry c v2 hcn hcv
              have hne : ((v2 + (fun c2 => heuristic c2 goal) c, c) : Nat × Cell) ≠ (p, cur) := by
                intro he
                have h6 : c = cur := congrArg Prod.snd he
                exact hcn (h6.symm ▸ hstale)
              rw [hrest]
              exact (List.mem_erase_of_ne hne).2 hfe
            · intro pe c hc
              refine hinv.entry_g pe c ?_
              rw [hrest] at hc
              exact List.mem_of_mem_erase hc
          · show uMeasure g rest st.gscore < n
            omega
        · -- fresh pop: settle `cur`, relax its neighbours
          simp only [if_neg hstale]
          obtain ⟨vcur, hv, hpeq, hminv⟩ := ucs_settle hinv hconsh hpop hstale
          obtain ⟨q0, hq0, hq0len⟩ := hinv.realizable cur vcur hv
          obtain ⟨q2, hq2, hq2l, hq2b⟩ := path_bound hq0
          have hvb : vcur ≤ g.size * g.size := le_trans (hminv q2 hq2) hq2b
          have hF0 : UFInv g s goal (fun c => heuristic c goal) cur vcur
              (cur :: st.close_set) rest st.came_from st.gscore := by
            refine ⟨hinv.g_start, hinv.cf_start, hinv.dom_iff, hinv.dom_walk,
              hinv.cf_shape, ?_, hinv.cf_lt, hinv.realizable, ?_, ?_, ?_, ?_, ?_,
              hv, List.mem_cons_self _ _⟩
            · intro c p2 hc
              exact List.mem_cons_of_mem _ (hinv.cf_closed c p2 hc)
            · intro c hc
              rcases List.mem_cons.1 hc with h1 | h1
              · subst h1
                exact ⟨vcur, hv, hminv⟩
              · exact hinv.closed_settled c h1
            · intro c hc hne off hoff hw
              rcases List.mem_cons.1 hc with h1 | h1
              · exact absurd h1 hne
              · exact hinv.closed_relaxed c h1 off hoff hw
            · intro c v2 hcn hcv
              have hcC : c ∉ st.close_set := fun h => hcn (List.mem_cons_of_mem _ h)
              have hccur : c ≠ cur := fun h => hcn (h ▸ List.mem_cons_self _ _)
              have hfe := hinv.fresh_entry c v2 hcC hcv
              have hne : ((v2 + (fun c2 => heuristic c2 goal) c, c) : Nat × Cell) ≠ (p, cur) := by
                intro he
                exact hccur (congrArg Prod.snd he)
              rw [hrest]
              exact (List.mem_erase_of_ne hne).2 hfe
            · intro pe c hc
              refine hinv.entry_g pe c ?_
              rw [hrest] at hc
              exact List.mem_of_mem_erase hc
            · intro hgc
              rcases List.mem_cons.1 hgc with h1 | h1
              · exact hgoal h1.symm
              · exact hinv.not_goal h1
          obtain ⟨hFf, hMf, hMef, hCf⟩ :=
            uFold_ast hvb neighborOffsets (fun _ h => h)
              (rest, st.came_from, st.gscore, st.fscore) hF0
          have hMef2 : uMeasure g
              (neighborOffsets.foldl (astarRelax g goal cur (cur :: st.close_set))
                (rest, st.came_from, st.gscore, st.fscore)).1
              (neighborOffsets.foldl (astarRelax g goal cur (cur :: st.close_set))
                (rest, st.came_from, st.gscore, st.fscore)).2.2.1 ≤
              uMeasure g rest st.gscore := hMef
          have hlen : rest.length + 1 = st.oheap.length := by
            have hpos := List.length_pos_of_mem hmem
            rw [hrest, List.length_erase_of_mem hmem]
            omega
          have hmeq : uMeasure g rest st.gscore + 1 = uMeasure g st.oheap st.gscore := by
            unfold uMeasure
            omega
          refine ih _ ?_ ?_
          · refine ⟨hFf.g_start, hFf.cf_start, hFf.dom_iff, hFf.dom_walk, hFf.cf_shape,
              hFf.cf_closed, hFf.cf_lt, hFf.realizable, hFf.closed_settled, ?_,
              hFf.fresh_entry, hFf.entry_g, hFf.not_goal⟩
            intro c hc off hoff hw
            by_cases hccur : c = cur
            · subst hccur
              obtain ⟨w, hwv, hwle⟩ := hCf off hoff hw
              exact ⟨vcur, w, hFf.cur_g, hwv, by omega⟩
            · rcases List.mem_cons.1 hc with h1 | h1
              · exact absurd h1 hccur
              · exact hFf.closed_relaxed c (List.mem_cons_of_mem _ h1) hccur off hoff hw
          · show uMeasure g
              (neighborOffsets.foldl (astarRelax g goal cur (cur :: st.close_set))
                (rest, st.came_from, st.gscore, st.fscore)).1
              (neighborOffsets.foldl (astarRelax g goal cur (cur :: st.close_set))
                (rest, st.came_from, st.gscore, st.fscore)).2.2.1 < n
            omega

/-- `astar` returns a valid, start-avoiding, length-minimal path when one
exists, and the empty path exactly when the goal is unreachable. -/
theorem astar_master (g : Grid) (s goal : Cell) :
    ∃ out, astar g s goal = some out ∧
      ((IsPath g s out goal ∧ s ∉ out ∧
        ∀ q, IsPath g s q goal → out.length ≤ q.length) ∨
       (out = [] ∧ ∀ q, ¬ IsPath g s q goal)) := by
  unfold astar
  refine astarLoop_master g s goal (searchFuel g) _ ?_ ?_
  · exact uInv_init g s goal (fun c => heuristic c goal) rfl
  · show uMeasure g [(heuristic s goal, s)] (updateMap (fun _ => none) s 0) < searchFuel g
    exact uMeasure_init g s (heuristic s goal, s)

/-- A nonempty chain ends exactly at its endpoint. -/
theorem chain_getLast {e : Cell} : ∀ {p : List Cell} {s : Cell},
    Chain s p e → p ≠ [] → p.getLast? = some e := by
  intro p
  induction p with
  | nil => intro s _ hne; exact absurd rfl hne
  | cons x xs ih =>
    intro s h _
    cases xs with
    | nil =>
      have h2 : e = x := h.2
      rw [h2]
      rfl
    | cons y ys =>
      rw [List.getLast?_cons_cons]
      exact ih h.2 (by simp)

/-- C2.  Whenever a pathfinding algorithm returns a non-empty path, the path
excludes the start cell, starts at a 4-neighbour of the start, proceeds by
4-neighbour steps through in-bounds non-obstacle cells only, and ends exactly
at the goal — so walking it from the start reaches exactly the goal. -/
theorem path_validity (alg : Alg) (g : Grid) (s goal : Cell) (p : List Cell)
    (hp : findPath alg g s goal = some p) (hne : p ≠ []) :
    s ∉ p ∧ IsPath g s p goal ∧ p.getLast? = some goal := by
  have hmain : ∃ out, findPath alg g s goal = some out ∧
      ((IsPath g s out goal ∧ s ∉ out) ∨ (out = [] ∧ ∀ q, ¬ IsPath g s q goal)) := by
    cases alg with
    | astar =>
      obtain ⟨out, h1, h2⟩ := astar_master g s goal
      exact ⟨out, h1, h2.imp (fun h => ⟨h.1, h.2.1⟩) id⟩
    | greedy =>
      obtain ⟨out, h1, h2⟩ := greedy_master g s goal
      exact ⟨out, h1, h2⟩
    | dijkstra =>
      obtain ⟨out, h1, h2⟩ := dijkstra_master g s goal
      exact ⟨out, h1, h2.imp (fun h => ⟨h.1, h.2.1⟩) id⟩
  obtain ⟨out, h1, h2⟩ := hmain
  rw [hp] at h1
  injection h1 with h1
  subst h1
  rcases h2 with ⟨hpath, hns⟩ | ⟨hnil, -⟩
  · exact ⟨hns, hpath, chain_getLast hpath.1 hne⟩
  · exact absurd hnil hne

/-- C5.  When the goal cell is an obstacle (or out of bounds) or is
unreachable from the start, all three algorithms return the empty path as a
normal result. -/
theorem unreachable_goal_empty (g : Grid) (s goal : Cell)
    (h : ¬ cellWalkable g goal ∨ ∀ q, ¬ IsPath g s q goal) :
    dijkstra g s goal = some [] ∧ astar g s goal = some [] ∧
      greedy_best_first g s goal = some [] := by
  by_cases hsg : s = goal
  · subst hsg
    exact ⟨dijkstra_self g s, astar_self g s, greedy_self g s⟩
  · have hnp : ∀ q, ¬ IsPath g s q goal := by
      rcases h with h | h
      · intro q hq
        cases q with
        | nil =>
          have h2 : goal = s := hq.1
          exact hsg h2.symm
        | cons c cs =>
          exact h (hq.2 goal (chain_last hq.1 (by simp)))
      · exact h
    refine ⟨?_, ?_, ?_⟩
    · obtain ⟨out, h1, h2⟩ := dijkstra_master g s goal
      rcases h2 with ⟨hpath, -, -⟩ | ⟨hnil, -⟩
      · exact absurd hpath (hnp out)
      · rw [hnil] at h1
        exact h1
    · obtain ⟨out, h1, h2⟩ := astar_master g s goal
      rcases h2 with ⟨hpath, -, -⟩ | ⟨hnil, -⟩
      · exact absurd hpath (hnp out)
      · rw [hnil] at h1
        exact h1
    · obtain ⟨out, h1, h2⟩ := greedy_master g s goal
      rcases h2 with ⟨hpath, -⟩ | ⟨hnil, -⟩
      · exact absurd hpath (hnp out)
      · rw [hnil] at h1
        exact h1

/-- C1.  On walkable start/goal cells with the goal reachable, `astar` and
`dijkstra` return paths of equal, minimal length, and `greedy_best_first`
returns a (valid) path at least that long. -/
theorem search_optimality (g : Grid) (s goal : Cell) (q0 : List Cell)
    (hs : cellWalkable g s) (hg : cellWalkable g goal) (hq0 : IsPath g s q0 goal) :
    ∃ pd pa pg, dijkstra g s goal = some pd ∧ astar g s goal = some pa ∧
      greedy_best_first g s goal = some pg ∧
      IsPath g s pd goal ∧ IsPath g s pa goal ∧ IsPath g s pg goal ∧
      pa.length = pd.length ∧ (∀ q, IsPath g s q goal → pd.length ≤ q.length) ∧
      pd.length ≤ pg.length := by
  obtain ⟨pd, hd1, hd2⟩ := dijkstra_master g s goal
  obtain ⟨pa, ha1, ha2⟩ := astar_master g s goal
  obtain ⟨pg, hg1, hg2⟩ := greedy_master g s goal
  rcases hd2 with ⟨hdp, -, hdm⟩ | ⟨-, hun⟩
  · rcases ha2 with ⟨hap, -, ham⟩ | ⟨-, hun⟩
    · rcases hg2 with ⟨hgp, -⟩ | ⟨-, hun⟩
      · exact ⟨pd, pa, pg, hd1, ha1, hg1, hdp, hap, hgp,
          le_antisymm (ham pd hdp) (hdm pa hap), hdm, hdm pg hgp⟩
      · exact absurd hq0 (hun q0)
    · exact absurd hq0 (hun q0)
  · exact absurd hq0 (hun q0)

theorem path_validity_witness :
    findPath Alg.greedy (⟨2, [[0, 0], [0, 0]]⟩ : Grid) (0, 0) (1, 1) =
        some [(0, 1), (1, 1)] ∧
    (((0, 0) : Cell) ∉ ([(0, 1), (1, 1)] : List Cell) ∧
      IsPath ⟨2, [[0, 0], [0, 0]]⟩ (0, 0) [(0, 1), (1, 1)] (1, 1) ∧
      ([(0, 1), (1, 1)] : List Cell).getLast? = some (1, 1)) :=
  ⟨by decide, path_validity Alg.greedy ⟨2, [[0, 0], [0, 0]]⟩ (0, 0) (1, 1)
    [(0, 1), (1, 1)] (by decide) (by decide)⟩

theorem unreachable_goal_empty_witness :
    (¬ cellWalkable (⟨2, [[0, 0], [0, 0]]⟩ : Grid) (5, 5) ∨
      ∀ q, ¬ IsPath ⟨2, [[0, 0], [0, 0]]⟩ (0, 0) q (5, 5)) ∧
    (dijkstra ⟨2, [[0, 0], [0, 0]]⟩ (0, 0) (5, 5) = some [] ∧
      astar ⟨2, [[0, 0], [0, 0]]⟩ (0, 0) (5, 5) = some [] ∧
      greedy_best_first ⟨2, [[0, 0], [0, 0]]⟩ (0, 0) (5, 5) = some []) :=
  ⟨Or.inl (by decide),
    unreachable_goal_empty ⟨2, [[0, 0], [0, 0]]⟩ (0, 0) (5, 5) (Or.inl (by decide))⟩

theorem search_optimality_witness :
    cellWalkable (⟨2, [[0, 0], [0, 0]]⟩ : Grid) (0, 0) ∧
    cellWalkable (⟨2, [[0, 0], [0, 0]]⟩ : Grid) (1, 1) ∧
    IsPath ⟨2, [[0, 0], [0, 0]]⟩ (0, 0) [(1, 0), (1, 1)] (1, 1) ∧
    (∃ pd pa pg, dijkstra ⟨2, [[0, 0], [0, 0]]⟩ (0, 0) (1, 1) = some pd ∧
      astar ⟨2, [[0, 0], [0, 0]]⟩ (0, 0) (1, 1) = some pa ∧
      greedy_best_first ⟨2, [[0, 0], [0, 0]]⟩ (0, 0) (1, 1) = some pg ∧
      IsPath ⟨2, [[0, 0], [0, 0]]⟩ (0, 0) pd (1, 1) ∧
      IsPath ⟨2, [[0, 0], [0, 0]]⟩ (0, 0) pa (1, 1) ∧
      IsPath ⟨2, [[0, 0], [0, 0]]⟩ (0, 0) pg (1, 1) ∧
      pa.length = pd.length ∧
      (∀ q, IsPath ⟨2, [[0, 0], [0, 0]]⟩ (0, 0) q (1, 1) → pd.length ≤ q.length) ∧
      pd.length ≤ pg.length) :=
  ⟨by decide, by decide, by decide,
    search_optimality ⟨2, [[0, 0], [0, 0]]⟩ (0, 0) (1, 1) [(1, 0), (1, 1)]
      (by decide) (by decide) (by decide)⟩

end DeliveryBot
